import Mathlib

/-!
# youtubeHangulComment: a verification development for `main.go`

The program reads a video URL, extracts the video identifier (`getVideoID`),
asks the "videos" endpoint for the uploader's channel
(`getVideoOwnerChannelId`), fetches one page of comment threads, and writes two
CSV files: every comment not authored by the uploader, and the subset whose
text has a Hangul syllable.

Modelling conventions.

* A Go `string` is modelled by its sequence of code points (`Str`).  Every
  string the program compares, splits or writes is either ASCII program text or
  comes out of `json.Unmarshal`, which only produces valid UTF-8; for the URL
  typed by the user the model covers the valid UTF-8 inputs.  All separators the
  program searches for are ASCII, so searching code points and searching bytes
  find the same places.
* The outside world (environment file, console, HTTP, the JSON decoder, file
  creation) is a record `World` of the answers it gives; `main` is a function
  from a world to the list of effects it performs, in order.
* `strings.Index`, `strings.Contains`, `strings.Split`, `regexp.MatchString`
  and `encoding/csv` are Go library code; they are modelled after the library.
-/

namespace YoutubeHangulComment

/-! ## Strings -/

/-- A Go string, as the list of its code points. -/
abbrev Str := List Char

/-- A byte slice (a response body). -/
abbrev Bytes := List UInt8

/-- The Go test `strings.HasPrefix(s, pre)`. -/
def startsWith (s pre : Str) : Bool := pre.isPrefixOf s

/-- The Go function `strings.Index(s, substr)`: the first position at which
`substr` occurs in `s`; `none` stands for `-1`. -/
def Index : Str → Str → Option Nat
  | [], substr => if startsWith [] substr then some 0 else none
  | c :: t, substr =>
    if startsWith (c :: t) substr then some 0 else (Index t substr).map (· + 1)

/-- The Go function `strings.Contains(s, substr)`, which is `Index(s, substr) >= 0`. -/
def Contains (s substr : Str) : Bool := (Index s substr).isSome

/-- The loop of `strings.genSplit` (with `sepSave = 0`): at most `n` times, cut
`s` at the first occurrence of `sep`; the remainder is the last piece. -/
def splitLoop : Nat → Str → Str → List Str
  | 0, s, _ => [s]
  | n + 1, s, sep =>
    match Index s sep with
    | none => [s]
    | some m => s.take m :: splitLoop n (s.drop (m + sep.length)) sep

/-- The Go helper `strings.explode(s, -1)`: one string per code point. -/
def explode (s : Str) : List Str := s.map fun c => [c]

/-- The Go function `strings.Split(s, sep)`.  Go bounds the loop by
`Count(s, sep)`, the number of non-overlapping occurrences, and the loop also
leaves at the first failed `Index`; that number is at most `len(s)` for a
non-empty separator, so the bound `len(s)` gives the same pieces
(`splitLoop_bound`). -/
def Split (s sep : Str) : List Str :=
  if sep = [] then explode s else splitLoop s.length s sep

/-! ## `getVideoID` -/

/-- The marker tested by `getVideoID`. -/
def marker : Str := "youtube.com/watch?v=".toList

/-- The separator `getVideoID` splits the URL on. -/
def vEq : Str := "v=".toList

/-- The separator `getVideoID` splits the second piece on. -/
def amp : Str := "&".toList

/-- The function `getVideoID` of `main.go`.  `none` stands for a run-time panic
(an index out of range); `some s` is the returned string. -/
def getVideoID (url : Str) : Option Str :=
  if Contains url marker then
    let splitURL := Split url vEq
    if splitURL.length > 1 then
      match splitURL[1]? with
      | none => none
      | some piece => (Split piece amp)[0]?
    else some []
  else some []

/-! ## Data decoded from the API -/

/-- The field `authorChannelId` of a comment snippet. -/
structure AuthorChannelId where
  Value : Str
deriving DecidableEq, Repr

/-- The inner `snippet` of a top-level comment. -/
structure CommentSnippet where
  AuthorDisplayName : Str
  TextDisplay : Str
  AuthorChannelId : AuthorChannelId
deriving DecidableEq, Repr

/-- The field `topLevelComment`. -/
structure TopLevelComment where
  Snippet : CommentSnippet
deriving DecidableEq, Repr

/-- The outer `snippet` of a comment thread. -/
structure ThreadSnippet where
  TopLevelComment : TopLevelComment
deriving DecidableEq, Repr

/-- One entry of `YouTubeResponse.Items`. -/
structure Item where
  Snippet : ThreadSnippet
deriving DecidableEq, Repr

/-- The struct `YouTubeResponse` of `main.go`. -/
structure YouTubeResponse where
  Items : List Item
deriving DecidableEq, Repr

/-- The `snippet` of a "videos" entry. -/
structure VideoSnippet where
  ChannelId : Str
deriving DecidableEq, Repr

/-- One entry of `videoInfo.Items`. -/
structure VideoItem where
  Snippet : VideoSnippet
deriving DecidableEq, Repr

/-- The anonymous struct `videoInfo` of `getVideoOwnerChannelId`. -/
structure VideoInfo where
  Items : List VideoItem
deriving DecidableEq, Repr

/-- A comment thread entry from its three leaves. -/
def mkItem (author text channel : Str) : Item :=
  ⟨⟨⟨⟨author, text, ⟨channel⟩⟩⟩⟩⟩

/-- The local `comment := item.Snippet.TopLevelComment.Snippet` of the loop. -/
def Item.comment (item : Item) : CommentSnippet := item.Snippet.TopLevelComment.Snippet

/-! ## The outside world and the effects of a run -/

/-- An HTTP response: the status code and what `ioutil.ReadAll(resp.Body)` gives. -/
structure Response where
  StatusCode : Int
  Body : Except Str Bytes

/-- The answers of the outside world during one run.  Errors are given by their
message. -/
structure World where
  /-- The error of `godotenv.Load()`, if any. -/
  dotenvErr : Option Str
  /-- The value of `os.Getenv("YOUTUBE_API_KEY")`. -/
  apiKey : Str
  /-- The value of `youtubeURL` after `fmt.Scanln`. -/
  youtubeURL : Str
  /-- The result of `http.Get(url)`. -/
  httpGet : Str → Except Str Response
  /-- The result of `json.Unmarshal(body, &videoInfo)`. -/
  unmarshalVideoInfo : Bytes → Except Str VideoInfo
  /-- The result of `json.Unmarshal(body, &ytResponse)`. -/
  unmarshalYouTubeResponse : Bytes → Except Str YouTubeResponse
  /-- The error of `os.Create(name)`, if any. -/
  createErr : Str → Option Str

/-- The effects of a run, in the order the program performs them. -/
inductive Event where
  /-- The call `fmt.Print(s)`. -/
  | print (s : Str)
  /-- The call `fmt.Println(args...)` with string or error arguments. -/
  | println (args : List Str)
  /-- The call `fmt.Println("Status Code:", code)`. -/
  | printlnStatus (code : Int)
  /-- The call `http.Get(url)`. -/
  | httpGet (url : Str)
  /-- The call `json.Unmarshal` into the named variable, with its error. -/
  | unmarshal (target : Str) (err : Option Str)
  /-- The call `os.Create(name)`, with its error. -/
  | create (name : Str) (err : Option Str)
  /-- The call `Write(record)` on the CSV writer of the named file. -/
  | write (name : Str) (record : List Str)
  /-- The deferred `Flush()` of the CSV writer of the named file. -/
  | flush (name : Str)
  /-- The deferred `Close()` of the named file. -/
  | close (name : Str)
  /-- The call `panic(err)`. -/
  | panic (err : Str)
deriving DecidableEq, Repr

/-- The URL built by `getVideoOwnerChannelId`. -/
def videoInfoUrl (videoId apiKey : Str) : Str :=
  "https://www.googleapis.com/youtube/v3/videos?part=snippet&id=".toList ++ videoId
    ++ "&key=".toList ++ apiKey

/-- The URL built by `main` for the comment threads. -/
def commentThreadsUrl (apiKey videoID : Str) : Str :=
  "https://www.googleapis.com/youtube/v3/commentThreads?key=".toList ++ apiKey
    ++ "&textFormat=plainText&part=snippet&videoId=".toList ++ videoID

/-- The message of the error made by `fmt.Errorf` in `getVideoOwnerChannelId`. -/
def noVideoInformation : Str := "No video information found".toList

/-- The function `getVideoOwnerChannelId` of `main.go`: the effects it performs,
the returned string and the returned error.  (`len(Items) > 0` followed by
`Items[0]` is written as a match on the list; closing the response body is not
recorded.) -/
def getVideoOwnerChannelId (w : World) (apiKey videoId : Str) :
    List Event × Str × Option Str :=
  let url := videoInfoUrl videoId apiKey
  match w.httpGet url with
  | .error err => ([.httpGet url], [], some err)
  | .ok resp =>
    match resp.Body with
    | .error err => ([.httpGet url], [], some err)
    | .ok body =>
      match w.unmarshalVideoInfo body with
      | .error err => ([.httpGet url, .unmarshal "videoInfo".toList (some err)], [], some err)
      | .ok videoInfo =>
        match videoInfo.Items with
        | first :: _ =>
          ([.httpGet url, .unmarshal "videoInfo".toList none], first.Snippet.ChannelId, none)
        | [] =>
          ([.httpGet url, .unmarshal "videoInfo".toList none], [], some noVideoInformation)

/-- The first character of the class of the regular expression `[가-힣]`. -/
def hangulFirst : Char := '가'

/-- The last character of the class of the regular expression `[가-힣]`. -/
def hangulLast : Char := '힣'

/-- The call `re.MatchString(s)` for `re = regexp.MustCompile("[가-힣]")`: some
code point of `s` lies in the class. -/
def MatchString (s : Str) : Bool :=
  s.any fun r => decide (hangulFirst.toNat ≤ r.toNat) && decide (r.toNat ≤ hangulLast.toNat)

/-- The name of the filtered output. -/
def koreanFile : Str := "comments_korean.csv".toList

/-- The name of the output with every comment. -/
def allFile : Str := "comments_all.csv".toList

/-- The header record written to both files. -/
def header : List Str := ["Author".toList, "Comment".toList]

/-- The loop over `ytResponse.Items` of `main` (lines 164-179). -/
def commentLoop (videoOwnerChannelId : Str) : List Item → List Event
  | [] => []
  | item :: rest =>
    let comment := item.comment
    if comment.AuthorChannelId.Value = videoOwnerChannelId then
      commentLoop videoOwnerChannelId rest
    else
      .write allFile [comment.AuthorDisplayName, comment.TextDisplay] ::
        ((if MatchString comment.TextDisplay then
            [.write koreanFile [comment.AuthorDisplayName, comment.TextDisplay]]
          else []) ++ commentLoop videoOwnerChannelId rest)

/-- The last part of `main` (lines 137-179): both files are created, the header
goes to both, the loop runs, and the deferred flushes and closes run in reverse
order.  A failed `os.Create` panics, and the calls deferred so far still run. -/
def writeStage (w : World) (videoOwnerChannelId : Str) (ytResponse : YouTubeResponse) :
    List Event :=
  match w.createErr koreanFile with
  | some e => [.create koreanFile (some e), .panic e]
  | none =>
    .create koreanFile none ::
    match w.createErr allFile with
    | some e => [.create allFile (some e), .panic e, .flush koreanFile, .close koreanFile]
    | none =>
      .create allFile none :: .write koreanFile header :: .write allFile header ::
        (commentLoop videoOwnerChannelId ytResponse.Items
          ++ [.flush allFile, .close allFile, .flush koreanFile, .close koreanFile])

/-- The function `main` of `main.go`, as the list of its effects. -/
def main (w : World) : List Event :=
  match w.dotenvErr with
  | some _ => [.println ["Error loading .env file".toList]]
  | none =>
    if w.apiKey = [] then [.println ["Error: No API key found in .env file".toList]]
    else
      .print "Enter YouTube video URL: ".toList ::
      match getVideoID w.youtubeURL with
      | none => [.panic "index out of range".toList]
      | some videoID =>
        let url := commentThreadsUrl w.apiKey videoID
        match getVideoOwnerChannelId w w.apiKey videoID with
        | (events, _, some err) =>
          events ++ [.println ["Error getting video owner channel ID:".toList, err]]
        | (events, videoOwnerChannelId, none) =>
          events ++ .httpGet url ::
          match w.httpGet url with
          | .error err => [.println ["HTTP request failed:".toList, err]]
          | .ok resp =>
            .printlnStatus resp.StatusCode ::
            match resp.Body with
            | .error err => [.println ["Failed to read response body:".toList, err]]
            | .ok body =>
              match w.unmarshalYouTubeResponse body with
              | .error err =>
                [.unmarshal "ytResponse".toList (some err),
                 .println ["Failed to unmarshal JSON:".toList, err]]
              | .ok ytResponse =>
                .unmarshal "ytResponse".toList none ::
                  writeStage w videoOwnerChannelId ytResponse

/-! ## `encoding/csv`: the writer, with its default settings -/

/-- The double quote character. -/
def dquote : Char := Char.ofNat 34

/-- The backslash character. -/
def backslash : Char := Char.ofNat 92

/-- The Go test `unicode.IsSpace(r)`: the code points with the White_Space
property. -/
def isSpace (r : Char) : Bool :=
  let n := r.toNat
  (9 ≤ n && n ≤ 13) || n == 32 || n == 0x85 || n == 0xA0 || n == 0x1680
    || (0x2000 ≤ n && n ≤ 0x200A) || n == 0x2028 || n == 0x2029 || n == 0x202F
    || n == 0x205F || n == 0x3000

/-- The characters that force quotes when `Comma` is `,`. -/
def isSpecial (c : Char) : Bool := c == '\n' || c == '\r' || c == dquote || c == ','

/-- The method `Writer.fieldNeedsQuotes` for `Comma = ','`. -/
def fieldNeedsQuotes (field : Str) : Bool :=
  if field = [] then false
  else if field = [backslash, '.'] then true
  else if field.any isSpecial then true
  else
    match field with
    | r1 :: _ => isSpace r1
    | [] => false

/-- What `Writer.Write` emits for one character of a quoted field when
`UseCRLF` is false: a quote is doubled, every other character (carriage return
and line feed included) is copied. -/
def quoteChar (c : Char) : Str := if c = dquote then [dquote, dquote] else [c]

/-- The body of a quoted field. -/
def quoteBody : Str → Str
  | [] => []
  | c :: t => quoteChar c ++ quoteBody t

/-- What `Writer.Write` emits for one field. -/
def writeField (field : Str) : Str :=
  if fieldNeedsQuotes field then dquote :: (quoteBody field ++ [dquote]) else field

/-- The fields of a record, a comma before every field but the first. -/
def writeFields : List Str → Str
  | [] => []
  | [field] => writeField field
  | field :: rest => writeField field ++ ',' :: writeFields rest

/-- The bytes `Writer.Write(record)` appends to its buffer (`UseCRLF` false). -/
def csvWrite (record : List Str) : Str := writeFields record ++ ['\n']

/-- The bytes of a sequence of records. -/
def csvWriteAll : List (List Str) → Str
  | [] => []
  | record :: rest => csvWrite record ++ csvWriteAll rest

/-! ## The files left by a run -/

/-- One output file during a run: what is on disk (`none` before `os.Create`)
and what the CSV writer still holds in its buffer. -/
structure FileState where
  disk : Option Str
  pending : Str
deriving DecidableEq, Repr

/-- The effect of one event on the file called `name`.  Write errors of the
file system are not modelled. -/
def fileStep (name : Str) (st : FileState) : Event → FileState
  | .create n none => if n = name then ⟨some [], st.pending⟩ else st
  | .write n record => if n = name then ⟨st.disk, st.pending ++ csvWrite record⟩ else st
  | .flush n => if n = name then ⟨st.disk.map (· ++ st.pending), []⟩ else st
  | _ => st

/-- The content of the file called `name` after the run, `none` when the run
did not create it. -/
def fileAfter (name : Str) (trace : List Event) : Option Str :=
  (trace.foldl (fileStep name) ⟨none, []⟩).disk

/-- The records passed to `Write` for the file called `name`, in order. -/
def written (name : Str) : List Event → List (List Str)
  | [] => []
  | .write n record :: rest => if n = name then record :: written name rest else written name rest
  | _ :: rest => written name rest

/-- The event creates a file or writes a record. -/
def Event.isFileOutput : Event → Bool
  | .create _ _ => true
  | .write _ _ => true
  | _ => false

/-! ## `encoding/csv`: the reader, with its default settings

`Comma = ','`, no comment character, `FieldsPerRecord = 0`, `LazyQuotes` and
`TrimLeadingSpace` false.  The reader works on an in-memory copy of the file,
so the only read error is `io.EOF`. -/

/-- The errors of the reader; `outOfFuel` is not a Go error, it marks a loop
bound of the model that was too small. -/
inductive CsvError where
  | bareQuote
  | quote
  | fieldCount
  | outOfFuel
deriving DecidableEq, Repr

/-- The Go helper `lengthNL`: 1 when the line ends in a line feed, else 0. -/
def lengthNL (b : Str) : Nat := if b.getLast? = some '\n' then 1 else 0

/-- The end of `Reader.readLine`: a line ending in carriage return, line feed
has the carriage return removed. -/
def normalizeNL (line : Str) : Str :=
  match line.reverse with
  | '\n' :: '\r' :: r => r.reverse ++ ['\n']
  | _ => line

/-- The backwards-compatibility rule of `Reader.readLine` for a last line
without a line feed: a trailing carriage return is dropped. -/
def dropTrailingCR (line : Str) : Str :=
  if line.getLast? = some '\r' then line.dropLast else line

/-- The method `Reader.readLine` on the remaining input: the line (up to and
including the first line feed), whether the result is `io.EOF`, and the input
left. -/
def readLine (inp : Str) : Str × Bool × Str :=
  let l := inp.takeWhile (· != '\n')
  match inp.dropWhile (· != '\n') with
  | _ :: rest => (normalizeNL (l ++ ['\n']), false, rest)
  | [] => if l = [] then ([], true, []) else (normalizeNL (dropTrailingCR l), false, [])

/-- The position of the first `c` in `line`, as `bytes.IndexByte`. -/
def indexChar (c : Char) : Str → Option Nat
  | [] => none
  | d :: t => if d = c then some 0 else (indexChar c t).map (· + 1)

mutual

/-- The loop `parseField` of `Reader.readRecord`: `line` is what is left of the
current line, `inp` the input after it, `fields` the fields completed so far.
The result is the record and the input left. -/
def parseField : Nat → Str → Str → List Str → Except CsvError (List Str × Str)
  | 0, _, _, _ => .error .outOfFuel
  | fuel + 1, line, inp, fields =>
    if line = [] ∨ line.head? ≠ some dquote then
      match indexChar ',' line with
      | some i =>
        let field := line.take i
        if dquote ∈ field then .error .bareQuote
        else parseField fuel (line.drop (i + 1)) inp (fields ++ [field])
      | none =>
        let field := line.take (line.length - lengthNL line)
        if dquote ∈ field then .error .bareQuote
        else .ok (fields ++ [field], inp)
    else quotedField fuel (line.drop 1) inp [] fields

/-- The inner loop of `parseField` for a quoted field: `buf` is the part of the
field read so far. -/
def quotedField : Nat → Str → Str → Str → List Str → Except CsvError (List Str × Str)
  | 0, _, _, _, _ => .error .outOfFuel
  | fuel + 1, line, inp, buf, fields =>
    match indexChar dquote line with
    | some i =>
      let buf := buf ++ line.take i
      let line := line.drop (i + 1)
      match line with
      | c :: l2 =>
        if c = dquote then quotedField fuel l2 inp (buf ++ [dquote]) fields
        else if c = ',' then parseField fuel l2 inp (fields ++ [buf])
        else if lengthNL line = line.length then .ok (fields ++ [buf], inp)
        else .error .quote
      | [] => .ok (fields ++ [buf], inp)
    | none =>
      if line ≠ [] then
        let next := readLine inp
        quotedField fuel next.1 next.2.2 (buf ++ line) fields
      else .error .quote

end

/-- The method `Reader.readRecord`: empty lines are skipped, `none` stands for
`io.EOF`. -/
def readRecord : Nat → Str → Except CsvError (Option (List Str × Str))
  | 0, _ => .error .outOfFuel
  | fuel + 1, inp =>
    let next := readLine inp
    if next.2.1 then .ok none
    else if next.1.length = lengthNL next.1 then readRecord fuel next.2.2
    else
      match parseField (next.1.length + next.2.2.length + 1) next.1 next.2.2 [] with
      | .error e => .error e
      | .ok r => .ok (some r)

/-- The loop of `Reader.ReadAll`: `fieldsPerRecord` is the reader's
`FieldsPerRecord`, 0 until the first record sets it. -/
def readAllLoop : Nat → Str → Nat → List (List Str) → Except CsvError (List (List Str))
  | 0, _, _, _ => .error .outOfFuel
  | fuel + 1, inp, fieldsPerRecord, records =>
    match readRecord (inp.length + 1) inp with
    | .error e => .error e
    | .ok none => .ok records
    | .ok (some (record, rest)) =>
      if fieldsPerRecord > 0 ∧ record.length ≠ fieldsPerRecord then .error .fieldCount
      else
        readAllLoop fuel rest (if fieldsPerRecord = 0 then record.length else fieldsPerRecord)
          (records ++ [record])

/-- The call `csv.NewReader(file).ReadAll()` on a file with the given content. -/
def ReadAll (content : Str) : Except CsvError (List (List Str)) :=
  readAllLoop (content.length + 1) content 0 []

/-! ## Notions used to state the properties -/

/-- The first piece of `Split s sep` for a non-empty separator: `s` up to the
first occurrence of `sep`, all of `s` when there is none. -/
def firstPiece (s sep : Str) : Str :=
  match Index s sep with
  | none => s
  | some m => s.take m

/-- The record `[]string{comment.AuthorDisplayName, comment.TextDisplay}` the
loop writes for a comment. -/
def Item.record (item : Item) : List Str :=
  [item.comment.AuthorDisplayName, item.comment.TextDisplay]

/-- The comment is not authored by `owner`. -/
def Item.notBy (owner : Str) (item : Item) : Bool :=
  decide (item.comment.AuthorChannelId.Value ≠ owner)

/-- The event changes a file or a CSV writer's buffer. -/
def Event.touchesFile : Event → Bool
  | .create _ _ => true
  | .write _ _ => true
  | .flush _ => true
  | _ => false

/-- The event reports a failure: a diagnostic printed with `fmt.Println`, or a
panic. -/
def Event.isFailure : Event → Bool
  | .println _ => true
  | .panic _ => true
  | _ => false

/-- The run gets to the loop over the comments with the owner `owner` and the
decoded comment list `items`: every step before the loop succeeds. -/
def ReachesWriter (w : World) (owner : Str) (items : List Item) : Prop :=
  w.dotenvErr = none ∧ w.apiKey ≠ [] ∧
  ∃ videoID resp body, getVideoID w.youtubeURL = some videoID ∧
    (getVideoOwnerChannelId w w.apiKey videoID).2 = (owner, none) ∧
    w.httpGet (commentThreadsUrl w.apiKey videoID) = .ok resp ∧ resp.Body = .ok body ∧
    w.unmarshalYouTubeResponse body = .ok ⟨items⟩ ∧
    w.createErr koreanFile = none ∧ w.createErr allFile = none

/-- The tail of a run that reaches the loop: lines 141-179 when both files can
be created. -/
def writeTail (owner : Str) (items : List Item) : List Event :=
  .create koreanFile none :: .create allFile none :: .write koreanFile header ::
    .write allFile header ::
      (commentLoop owner items
        ++ [.flush allFile, .close allFile, .flush koreanFile, .close koreanFile])

deriving instance DecidableEq for Except

/-- A carriage return immediately followed by a line feed occurs in `s`. -/
def hasCRLF : Str → Bool
  | '\r' :: '\n' :: _ => true
  | _ :: t => hasCRLF t
  | [] => false

/-- The string `s` with every carriage return, line feed pair replaced by a
line feed. -/
def crlfToLf : Str → Str
  | '\r' :: '\n' :: t => '\n' :: crlfToLf t
  | c :: t => c :: crlfToLf t
  | [] => []

/-! ## Concrete worlds -/

/-- A world in which the environment, the network and the file system all
work; the typed URL and the two decoded bodies are given. -/
def worldWith (url : Str) (videoInfo : Except Str VideoInfo)
    (ytResponse : Except Str YouTubeResponse) : World where
  dotenvErr := none
  apiKey := "KEY".toList
  youtubeURL := url
  httpGet := fun _ => .ok ⟨200, .ok []⟩
  unmarshalVideoInfo := fun _ => videoInfo
  unmarshalYouTubeResponse := fun _ => ytResponse
  createErr := fun _ => none

/-- A well-formed video URL. -/
def sampleURL : Str := "https://www.youtube.com/watch?v=abc123&t=10".toList

/-- A "videos" answer whose only entry is uploaded by `ownerId`. -/
def sampleVideoInfo : VideoInfo := ⟨[⟨⟨"ownerId".toList⟩⟩]⟩

/-- The three comments of the end-to-end scenario of the specification. -/
def scenarioComments : List Item :=
  [mkItem "ownerChannelId".toList "spam".toList "ownerId".toList,
   mkItem "Alice".toList "Hello world".toList "A1".toList,
   mkItem "Bob".toList "안녕하세요".toList "B1".toList]

/-- The world of the end-to-end scenario. -/
def scenarioWorld : World := worldWith sampleURL (.ok sampleVideoInfo) (.ok ⟨scenarioComments⟩)

/-- A world in which the "videos" body does not decode. -/
def videosDecodeErrorWorld : World :=
  worldWith sampleURL (.error "unexpected end of JSON input".toList) (.ok ⟨scenarioComments⟩)

/-- A world in which the "commentThreads" body does not decode. -/
def commentsDecodeErrorWorld : World :=
  worldWith sampleURL (.ok sampleVideoInfo) (.error "unexpected end of JSON input".toList)

/-- A world with no comment at all. -/
def emptyWorld : World := worldWith sampleURL (.ok sampleVideoInfo) (.ok ⟨[]⟩)

/-- A world in which the typed text is not a video URL. -/
def noMarkerWorld : World :=
  worldWith "https://example.com/".toList (.ok sampleVideoInfo) (.ok ⟨scenarioComments⟩)

/-- Comments whose author and text have commas, quotes, line feeds, a lone
carriage return, a leading space and Hangul, but no carriage return followed by
a line feed. -/
def specialComments : List Item :=
  [mkItem ("Ann, ".toList ++ [dquote, 'A', dquote]) ("x,y\n".toList ++ [dquote] ++ "z\r!".toList)
     "A2".toList,
   mkItem " 철수".toList ("한\n글, ".toList ++ [dquote]) "C3".toList,
   mkItem "me".toList "mine".toList "ownerId".toList]

/-- The world that returns `specialComments`. -/
def specialWorld : World := worldWith sampleURL (.ok sampleVideoInfo) (.ok ⟨specialComments⟩)

/-- A comment whose text has a carriage return followed by a line feed. -/
def crlfComments : List Item := [mkItem "Eve".toList "one\r\ntwo".toList "E1".toList]

/-- The world that returns `crlfComments`. -/
def crlfWorld : World := worldWith sampleURL (.ok sampleVideoInfo) (.ok ⟨crlfComments⟩)

/-- A URL with `v=` before the marker, and `&` after the identifier. -/
def earlierVEqAmpURL : Str := "https://proxy.example/rv=1/youtube.com/watch?v=abc&t=5".toList

/-- A URL with `v=` before the marker, and no `&`. -/
def earlierVEqURL : Str := "https://proxy.example/rv=1/youtube.com/watch?v=abc".toList

/-! # Theorems -/

theorem startsWith_iff (s pre : Str) : startsWith s pre = true ↔ pre <+: s := by
  simp [startsWith]

theorem Index_some_spec : ∀ (s sub : Str) (i : Nat), Index s sub = some i →
    startsWith (s.drop i) sub = true ∧ ∀ j, j < i → startsWith (s.drop j) sub = false := by
  intro s
  induction s with
  | nil =>
    intro sub i h
    simp only [Index] at h
    split at h
    · cases h; simp_all
    · cases h
  | cons c t ih =>
    intro sub i h
    simp only [Index] at h
    split at h
    · cases h; simp_all
    · rename_i hc
      cases hi : Index t sub with
      | none => simp [hi] at h
      | some k =>
        simp [hi] at h
        subst h
        obtain ⟨h1, h2⟩ := ih sub k hi
        refine ⟨by simpa using h1, ?_⟩
        intro j hj
        cases j with
        | zero => simpa using hc
        | succ j => simpa using h2 j (by omega)

theorem Index_none_spec : ∀ (s sub : Str), Index s sub = none →
    ∀ j, startsWith (s.drop j) sub = false := by
  intro s
  induction s with
  | nil =>
    intro sub h j
    simp only [Index] at h
    split at h
    · cases h
    · simp_all
  | cons c t ih =>
    intro sub h j
    simp only [Index] at h
    split at h
    · cases h
    · rename_i hc
      cases hi : Index t sub with
      | some k => simp [hi] at h
      | none =>
        cases j with
        | zero => simpa using hc
        | succ j => simpa using ih sub hi j

theorem Index_some_le : ∀ (s sub : Str) (i : Nat), Index s sub = some i → i ≤ s.length := by
  intro s
  induction s with
  | nil =>
    intro sub i h
    simp only [Index] at h
    split at h
    · cases h; simp
    · cases h
  | cons c t ih =>
    intro sub i h
    simp only [Index] at h
    split at h
    · cases h; simp
    · cases hi : Index t sub with
      | none => simp [hi] at h
      | some k =>
        simp [hi] at h
        subst h
        have := ih sub k hi
        simp; omega

theorem Index_nil_of_ne (sep : Str) (h : sep ≠ []) : Index [] sep = none := by
  cases sep with
  | nil => exact absurd rfl h
  | cons a t => simp [Index, startsWith]

theorem splitLoop_bound_aux (sep : Str) (hsep : sep ≠ []) : ∀ (n m : Nat) (s : Str),
    s.length ≤ n → s.length ≤ m → splitLoop n s sep = splitLoop m s sep := by
  intro n
  induction n with
  | zero =>
    intro m s hn _
    have hs : s = [] := List.length_eq_zero.mp (by omega)
    subst hs
    cases m with
    | zero => rfl
    | succ m => simp [splitLoop, Index_nil_of_ne sep hsep]
  | succ n ih =>
    intro m s hn hm
    cases m with
    | zero =>
      have hs : s = [] := List.length_eq_zero.mp (by omega)
      subst hs
      simp [splitLoop, Index_nil_of_ne sep hsep]
    | succ m =>
      simp only [splitLoop]
      cases hi : Index s sep with
      | none => rfl
      | some i =>
        simp only
        have hpos : 0 < sep.length := List.length_pos.mpr hsep
        have hle := Index_some_le s sep i hi
        rw [ih m (s.drop (i + sep.length)) (by simp; omega) (by simp; omega)]

/-- The bound used by `Split` is enough: any larger bound gives the same pieces. -/
theorem splitLoop_bound (s sep : Str) (hsep : sep ≠ []) (n : Nat) (h : s.length ≤ n) :
    splitLoop n s sep = Split s sep := by
  simp only [Split, if_neg hsep]
  exact splitLoop_bound_aux sep hsep n s.length s h (le_refl _)

theorem splitLoop_length_pos (n : Nat) (s sep : Str) : 0 < (splitLoop n s sep).length := by
  cases n with
  | zero => simp [splitLoop]
  | succ n =>
    simp only [splitLoop]
    split <;> simp

theorem splitLoop_head (sep : Str) (hsep : sep ≠ []) (n : Nat) (s : Str) (h : s.length ≤ n) :
    (splitLoop n s sep)[0]? = some (firstPiece s sep) := by
  cases n with
  | zero =>
    have hs : s = [] := List.length_eq_zero.mp (by omega)
    subst hs
    simp [splitLoop, firstPiece, Index_nil_of_ne sep hsep]
  | succ n =>
    simp only [splitLoop, firstPiece]
    cases Index s sep <;> simp

theorem Split_head (s sep : Str) (hsep : sep ≠ []) :
    (Split s sep)[0]? = some (firstPiece s sep) := by
  simp only [Split, if_neg hsep]
  exact splitLoop_head sep hsep _ s (le_refl _)

theorem startsWith_append_drop (s a b : Str) (h : startsWith s (a ++ b) = true) :
    startsWith (s.drop a.length) b = true := by
  rw [startsWith_iff] at h ⊢
  obtain ⟨r, hr⟩ := h
  subst hr
  simp

theorem startsWith_length (s pre : Str) (h : startsWith s pre = true) :
    pre.length ≤ s.length := by
  rw [startsWith_iff] at h
  exact h.length_le

theorem Contains_marker_vEq (url : Str) (h : Contains url marker = true) :
    ∃ i, Index url vEq = some i := by
  cases hi : Index url vEq with
  | some i => exact ⟨i, rfl⟩
  | none =>
    exfalso
    have hnone := Index_none_spec url vEq hi
    simp only [Contains, Option.isSome_iff_exists] at h
    obtain ⟨j, hj⟩ := h
    have h1 := (Index_some_spec url marker j hj).1
    have hm : marker = "youtube.com/watch?".toList ++ vEq := by decide
    rw [hm] at h1
    have h2 := startsWith_append_drop _ _ _ h1
    rw [List.drop_drop] at h2
    rw [hnone] at h2
    cases h2

theorem Index_some_add_le (s sub : Str) (i : Nat) (h : Index s sub = some i) :
    i + sub.length ≤ s.length := by
  have h1 := startsWith_length _ _ (Index_some_spec s sub i h).1
  have h2 := Index_some_le s sub i h
  simp at h1
  omega

/-- What `getVideoID` computes when the marker is present. -/
theorem getVideoID_eq (url : Str) (h : Contains url marker = true) :
    ∃ i, Index url vEq = some i ∧ 1 < (Split url vEq).length ∧
      getVideoID url = some (firstPiece (firstPiece (url.drop (i + 2)) vEq) amp) := by
  obtain ⟨i, hi⟩ := Contains_marker_vEq url h
  have hlen := Index_some_add_le url vEq i hi
  have hv : vEq ≠ [] := by decide
  have ha : amp ≠ [] := by decide
  have hvl : vEq.length = 2 := by decide
  rw [hvl] at hlen
  obtain ⟨n, hn⟩ : ∃ n, url.length = n + 1 := ⟨url.length - 1, by omega⟩
  have hsplit : Split url vEq = url.take i :: splitLoop n (url.drop (i + 2)) vEq := by
    simp only [Split, if_neg hv, hn, splitLoop, hi, hvl]
  have hpos := splitLoop_length_pos n (url.drop (i + 2)) vEq
  have hhead := splitLoop_head vEq hv n (url.drop (i + 2)) (by simp; omega)
  refine ⟨i, hi, ?_, ?_⟩
  · rw [hsplit]; simp; omega
  · have h1 : (Split url vEq)[1]? = some (firstPiece (url.drop (i + 2)) vEq) := by
      rw [hsplit]; simpa using hhead
    have h2 : 1 < (Split url vEq).length := by rw [hsplit]; simp; omega
    simp only [getVideoID, h, if_true, h2, h1, gt_iff_lt]
    exact Split_head _ amp ha

theorem firstPiece_spec (s sep : Str) :
    ∃ k, k ≤ s.length ∧ firstPiece s sep = s.take k ∧
      (∀ j, j < k → startsWith (s.drop j) sep = false) ∧
      (k = s.length ∨ startsWith (s.drop k) sep = true) := by
  cases hi : Index s sep with
  | none =>
    refine ⟨s.length, le_refl _, ?_, ?_, Or.inl rfl⟩
    · simp [firstPiece, hi]
    · intro j _
      exact Index_none_spec s sep hi j
  | some m =>
    obtain ⟨h1, h2⟩ := Index_some_spec s sep m hi
    exact ⟨m, Index_some_le s sep m hi, by simp [firstPiece, hi], h2, Or.inr h1⟩

theorem startsWith_drop_take (s sep : Str) (j k : Nat)
    (h : startsWith ((s.take k).drop j) sep = true) : startsWith (s.drop j) sep = true := by
  rw [startsWith_iff] at h ⊢
  rw [List.drop_take] at h
  exact h.trans (List.take_prefix _ _)

theorem startsWith_amp (s : Str) : startsWith s amp = true ↔ s[0]? = some '&' := by
  cases s with
  | nil => simp [startsWith, amp]
  | cons c t =>
    simp [startsWith, amp, List.isPrefixOf]
    exact eq_comm

theorem startsWith_amp_take (s : Str) (j k : Nat) (hjk : j < k) :
    startsWith ((s.take k).drop j) amp = startsWith (s.drop j) amp := by
  rw [Bool.eq_iff_iff, startsWith_amp, startsWith_amp]
  simp [List.getElem?_take, hjk]

theorem Contains_false_of (r sep : Str) (h : ∀ j, startsWith (r.drop j) sep = false) :
    Contains r sep = false := by
  cases hi : Index r sep with
  | none => simp [Contains, hi]
  | some m =>
    have := (Index_some_spec r sep m hi).1
    rw [h m] at this
    cases this

theorem segment_of_marker (url : Str) (h : Contains url marker = true) :
    ∃ pre rest k, url = pre ++ vEq ++ rest ∧
      (∀ j, j < pre.length → startsWith (url.drop j) vEq = false) ∧
      k ≤ rest.length ∧
      getVideoID url = some (rest.take k) ∧
      (∀ j, j < k → startsWith (rest.drop j) vEq = false ∧ startsWith (rest.drop j) amp = false) ∧
      (k = rest.length ∨ startsWith (rest.drop k) vEq = true ∨ startsWith (rest.drop k) amp = true) ∧
      1 < (Split url vEq).length ∧
      Contains (rest.take k) amp = false ∧ Contains (rest.take k) vEq = false := by
  obtain ⟨i, hi, hlen, hget⟩ := getVideoID_eq url h
  obtain ⟨hst, hfirst⟩ := Index_some_spec url vEq i hi
  have hile := Index_some_le url vEq i hi
  obtain ⟨k1, hk1le, hp1, hk1lt, hk1end⟩ := firstPiece_spec (url.drop (i + 2)) vEq
  obtain ⟨k2, hk2le, hp2, hk2lt, hk2end⟩ := firstPiece_spec (firstPiece (url.drop (i + 2)) vEq) amp
  set rest := url.drop (i + 2) with hrest
  rw [hp1] at hp2 hk2le hk2lt hk2end
  have hk2k1 : k2 ≤ k1 := by
    simp at hk2le; omega
  have hr : (rest.take k1).take k2 = rest.take k2 := by
    rw [List.take_take, min_eq_left hk2k1]
  have hk2r : k2 ≤ rest.length := le_trans hk2k1 hk1le
  have hno : ∀ j, j < k2 →
      startsWith (rest.drop j) vEq = false ∧ startsWith (rest.drop j) amp = false := by
    intro j hj
    refine ⟨hk1lt j (by omega), ?_⟩
    rw [← startsWith_amp_take rest j k1 (by omega)]
    exact hk2lt j hj
  refine ⟨url.take i, rest, k2, ?_, ?_, hk2r, ?_, hno, ?_, hlen, ?_, ?_⟩
  · rw [startsWith_iff] at hst
    obtain ⟨r, hr2⟩ := hst
    have : rest = r := by
      have h3 : (url.drop i).drop 2 = r := by rw [← hr2]; simp [vEq]
      rw [hrest, ← h3, List.drop_drop]
    rw [this, List.append_assoc, hr2, List.take_append_drop]
  · intro j hj
    apply hfirst
    simpa [List.length_take, hile] using hj
  · rw [hget, hp1, hp2, hr]
  · rcases hk2end with hend | hend
    · simp at hend
      rcases hk1end with h1 | h1
      · left; omega
      · have : k2 = k1 := by omega
        right; left; rw [this]; exact h1
    · right; right
      have hlt : k2 < k1 := by
        have := startsWith_length _ _ hend
        simp [amp] at this
        omega
      rw [← startsWith_amp_take rest k2 k1 hlt]
      exact hend
  · apply Contains_false_of
    intro j
    cases hc : startsWith ((rest.take k2).drop j) amp with
    | false => rfl
    | true =>
      exfalso
      have hj : j < k2 := by
        have := startsWith_length _ _ hc
        simp [amp] at this
        omega
      have := (hno j hj).2
      rw [startsWith_drop_take _ _ _ _ hc] at this
      cases this
  · apply Contains_false_of
    intro j
    cases hc : startsWith ((rest.take k2).drop j) vEq with
    | false => rfl
    | true =>
      exfalso
      have hj : j < k2 := by
        have := startsWith_length _ _ hc
        simp [vEq] at this
        omega
      have := (hno j hj).1
      rw [startsWith_drop_take _ _ _ _ hc] at this
      cases this

/-! ### Where `getVideoID` returns the identifier after the marker -/

theorem Index_eq_some_of (s sub : Str) (i : Nat) (h1 : startsWith (s.drop i) sub = true)
    (h2 : ∀ j, j < i → startsWith (s.drop j) sub = false) : Index s sub = some i := by
  cases hi : Index s sub with
  | none =>
    have := Index_none_spec s sub hi i
    rw [h1] at this
    cases this
  | some k =>
    obtain ⟨g1, g2⟩ := Index_some_spec s sub k hi
    rcases Nat.lt_trichotomy k i with hlt | heq | hgt
    · rw [h2 k hlt] at g1; cases g1
    · rw [heq]
    · rw [g2 i hgt] at h1; cases h1

theorem Contains_of_startsWith (s sub : Str) (j : Nat) (h : startsWith (s.drop j) sub = true) :
    Contains s sub = true := by
  cases hi : Index s sub with
  | none =>
    have := Index_none_spec s sub hi j
    rw [h] at this
    cases this
  | some k => simp [Contains, hi]

theorem startsWith_false_of_not_Contains (s sub : Str) (h : Contains s sub = false) (j : Nat) :
    startsWith (s.drop j) sub = false := by
  cases hc : startsWith (s.drop j) sub with
  | false => rfl
  | true =>
    rw [Contains_of_startsWith s sub j hc] at h
    cases h

theorem startsWith_vEq (s : Str) :
    startsWith s vEq = true ↔ s[0]? = some 'v' ∧ s[1]? = some '=' := by
  match s with
  | [] => simp [startsWith, vEq]
  | [c] =>
    simp [startsWith, vEq, List.isPrefixOf]
  | c :: d :: t =>
    simp [startsWith, vEq, List.isPrefixOf]
    constructor
    · rintro ⟨h1, h2⟩; exact ⟨h1.symm, h2.symm⟩
    · rintro ⟨h1, h2⟩; exact ⟨h1.symm, h2.symm⟩

theorem firstPiece_of_not_Contains (s sep : Str) (h : Contains s sep = false) :
    firstPiece s sep = s := by
  cases hi : Index s sep with
  | none => simp [firstPiece, hi]
  | some k => simp [Contains, hi] at h

theorem no_vEq_before_amp (id post : Str) (hid : Contains id vEq = false) (j : Nat)
    (hj : j ≤ id.length) : startsWith ((id ++ amp ++ post).drop j) vEq = false := by
  cases hc : startsWith ((id ++ amp ++ post).drop j) vEq with
  | false => rfl
  | true =>
    exfalso
    rw [startsWith_vEq] at hc
    simp only [List.getElem?_drop, List.append_assoc, amp] at hc
    obtain ⟨h0, h1⟩ := hc
    by_cases hlt : j + 1 < id.length
    · have hin := startsWith_false_of_not_Contains id vEq hid j
      have : startsWith (id.drop j) vEq = true := by
        rw [startsWith_vEq]
        simp only [List.getElem?_drop]
        rw [List.getElem?_append_left (by omega)] at h0 h1
        exact ⟨h0, h1⟩
      rw [this] at hin
      cases hin
    · by_cases heq : j = id.length
      · subst heq
        rw [List.getElem?_append_right (by omega)] at h0
        simp at h0
      · have hj1 : j + 1 = id.length := by omega
        rw [List.getElem?_append_right (by omega)] at h1
        simp [hj1] at h1

theorem firstPiece_id_amp (id post : Str) (hid1 : Contains id amp = false)
    (hid2 : Contains id vEq = false) :
    firstPiece (firstPiece (id ++ amp ++ post) vEq) amp = id := by
  obtain ⟨k, hk, hp, hlt, hend⟩ := firstPiece_spec (id ++ amp ++ post) vEq
  have hlen : (id ++ amp ++ post).length = id.length + 1 + post.length := by
    simp [amp]; omega
  have hk1 : id.length < k := by
    by_contra hcon
    have hle : k ≤ id.length := by omega
    rcases hend with h | h
    · omega
    · rw [no_vEq_before_amp id post hid2 k hle] at h
      cases h
  have hidx : Index (firstPiece (id ++ amp ++ post) vEq) amp = some id.length := by
    rw [hp]
    apply Index_eq_some_of
    · rw [startsWith_amp_take _ _ _ hk1, startsWith_amp]
      simp [amp]
    · intro j hj
      rw [startsWith_amp_take _ _ _ (by omega)]
      cases hc : startsWith ((id ++ amp ++ post).drop j) amp with
      | false => rfl
      | true =>
        exfalso
        rw [startsWith_amp] at hc
        simp only [List.getElem?_drop, List.append_assoc, add_zero] at hc
        rw [List.getElem?_append_left hj] at hc
        have hin := startsWith_false_of_not_Contains id amp hid1 j
        have : startsWith (id.drop j) amp = true := by
          rw [startsWith_amp]
          simpa using hc
        rw [this] at hin
        cases hin
  have hfp : ∀ s : Str, Index s amp = some id.length → firstPiece s amp = s.take id.length := by
    intro s hs
    simp [firstPiece, hs]
  rw [hfp _ hidx, hp, List.take_take, min_eq_left (by omega)]
  simp

/-- Where the claimed behaviour holds: when the `v=` of the marker is the first
`v=` of the URL and the identifier has neither `v=` nor `&`, `getVideoID`
returns the identifier, the text between the marker and the next `&`. -/
theorem getVideoID_marker_first_amp (pre id post : Str)
    (hfirst : Index (pre ++ marker ++ id ++ amp ++ post) vEq = some (pre.length + 18))
    (hid1 : Contains id amp = false) (hid2 : Contains id vEq = false) :
    getVideoID (pre ++ marker ++ id ++ amp ++ post) = some id := by
  have hc : Contains (pre ++ marker ++ id ++ amp ++ post) marker = true := by
    apply Contains_of_startsWith _ _ pre.length
    rw [startsWith_iff]
    simp [List.append_assoc]
  obtain ⟨i, hi, _, hget⟩ := getVideoID_eq _ hc
  rw [hfirst] at hi
  cases hi
  have hdrop : (pre ++ marker ++ id ++ amp ++ post).drop (pre.length + 18 + 2)
      = id ++ amp ++ post := by
    have hm : marker.length = 20 := by decide
    have : pre ++ marker ++ id ++ amp ++ post = (pre ++ marker) ++ (id ++ amp ++ post) := by
      simp [List.append_assoc]
    rw [this, List.drop_append_of_le_length (by simp [hm])]
    have hl : (pre ++ marker).length = pre.length + 18 + 2 := by simp [hm]
    rw [← hl, List.drop_length, List.nil_append]
  rw [hget, hdrop, firstPiece_id_amp id post hid1 hid2]

/-- Where the claimed behaviour holds: when the `v=` of the marker is the first
`v=` of the URL and the rest has neither `v=` nor `&`, `getVideoID` returns
everything after the marker. -/
theorem getVideoID_marker_first_end (pre rest : Str)
    (hfirst : Index (pre ++ marker ++ rest) vEq = some (pre.length + 18))
    (h1 : Contains rest amp = false) (h2 : Contains rest vEq = false) :
    getVideoID (pre ++ marker ++ rest) = some rest := by
  have hc : Contains (pre ++ marker ++ rest) marker = true := by
    apply Contains_of_startsWith _ _ pre.length
    rw [startsWith_iff]
    simp [List.append_assoc]
  obtain ⟨i, hi, _, hget⟩ := getVideoID_eq _ hc
  rw [hfirst] at hi
  cases hi
  have hdrop : (pre ++ marker ++ rest).drop (pre.length + 18 + 2) = rest := by
    have hm : marker.length = 20 := by decide
    have hl : (pre ++ marker).length = pre.length + 18 + 2 := by simp [hm]
    rw [← hl, List.drop_append_of_le_length (le_refl _), List.drop_length, List.nil_append]
  rw [hget, hdrop, firstPiece_of_not_Contains rest vEq h2, firstPiece_of_not_Contains rest amp h1]

/-- The sample URL: the identifier `abc123` is returned. -/
theorem getVideoID_sampleURL : getVideoID sampleURL = some "abc123".toList :=
  getVideoID_marker_first_amp "https://www.".toList "abc123".toList "t=10".toList
    (by decide) (by decide) (by decide)

/-! ### Files and traces -/

theorem fileStep_of_not_touches (name : Str) (st : FileState) (e : Event)
    (h : e.touchesFile = false) : fileStep name st e = st := by
  cases e <;> simp_all [Event.touchesFile, fileStep]

theorem foldl_fileStep_of_not_touches (name : Str) (tr : List Event)
    (h : ∀ e ∈ tr, e.touchesFile = false) (st : FileState) :
    tr.foldl (fileStep name) st = st := by
  induction tr generalizing st with
  | nil => rfl
  | cons e t ih =>
    simp only [List.foldl_cons]
    rw [fileStep_of_not_touches name st e (h e (by simp))]
    exact ih (fun e he => h e (by simp [he])) st

theorem written_append (name : Str) (a b : List Event) :
    written name (a ++ b) = written name a ++ written name b := by
  induction a with
  | nil => rfl
  | cons e t ih =>
    cases e <;> simp [written, ih]
    split <;> simp

theorem written_of_not_touches (name : Str) (tr : List Event)
    (h : ∀ e ∈ tr, e.touchesFile = false) : written name tr = [] := by
  induction tr with
  | nil => rfl
  | cons e t ih =>
    have he := h e (by simp)
    have ht := ih (fun e he => h e (by simp [he]))
    cases e <;> simp_all [written, Event.touchesFile]

theorem csvWriteAll_append (a b : List (List Str)) :
    csvWriteAll (a ++ b) = csvWriteAll a ++ csvWriteAll b := by
  induction a with
  | nil => rfl
  | cons r t ih => simp [csvWriteAll, ih]

/-! ### The loop -/

theorem written_allFile_commentLoop (owner : Str) (items : List Item) :
    written allFile (commentLoop owner items)
      = ((items.filter (Item.notBy owner)).map Item.record) := by
  induction items with
  | nil => rfl
  | cons item rest ih =>
    simp only [commentLoop]
    by_cases h : item.comment.AuthorChannelId.Value = owner
    · simp [h, ih, Item.notBy]
    · have hk : ¬ (koreanFile = allFile) := by decide
      by_cases hm : MatchString item.comment.TextDisplay = true
      · simp [h, hm, written, hk, ih, Item.notBy, Item.record]
      · simp [h, hm, written, ih, Item.notBy, Item.record]

theorem written_koreanFile_commentLoop (owner : Str) (items : List Item) :
    written koreanFile (commentLoop owner items)
      = (((items.filter (Item.notBy owner)).filter
          (fun item => MatchString item.comment.TextDisplay)).map Item.record) := by
  induction items with
  | nil => rfl
  | cons item rest ih =>
    simp only [commentLoop]
    have hk : ¬ (allFile = koreanFile) := by decide
    by_cases h : item.comment.AuthorChannelId.Value = owner
    · simp [h, ih, Item.notBy]
    · by_cases hm : MatchString item.comment.TextDisplay = true
      · simp [h, hm, written, hk, ih, Item.notBy, Item.record]
      · simp [h, hm, written, hk, ih, Item.notBy, Item.record]

theorem commentLoop_append (owner : Str) (a b : List Item) :
    commentLoop owner (a ++ b) = commentLoop owner a ++ commentLoop owner b := by
  induction a with
  | nil => rfl
  | cons item rest ih =>
    simp only [List.cons_append, commentLoop]
    split <;> simp [ih]

theorem commentLoop_filter (owner : Str) (items : List Item) :
    commentLoop owner (items.filter (Item.notBy owner)) = commentLoop owner items := by
  induction items with
  | nil => rfl
  | cons item rest ih =>
    by_cases h : item.comment.AuthorChannelId.Value = owner
    · simp [List.filter, Item.notBy, h, commentLoop]
      simpa [Item.notBy] using ih
    · simp [List.filter, Item.notBy, h, commentLoop]
      simpa [Item.notBy] using ih

theorem foldl_fileStep_commentLoop (name owner : Str) (items : List Item) (st : FileState) :
    (commentLoop owner items).foldl (fileStep name) st
      = ⟨st.disk, st.pending ++ csvWriteAll (written name (commentLoop owner items))⟩ := by
  induction items generalizing st with
  | nil => simp [commentLoop, written, csvWriteAll]
  | cons item rest ih =>
    simp only [commentLoop]
    by_cases h : item.comment.AuthorChannelId.Value = owner
    · simp only [h, if_true]; exact ih st
    · simp only [h, if_false]
      by_cases hm : MatchString item.comment.TextDisplay = true
      · by_cases h1 : allFile = name <;> by_cases h2 : koreanFile = name <;>
          simp [hm, fileStep, written, h1, h2, ih, csvWriteAll, List.append_assoc]
      · by_cases h1 : allFile = name <;>
          simp [hm, fileStep, written, h1, ih, csvWriteAll, List.append_assoc]

/-! ### The shape of a run -/

/-- The events of the owner lookup neither touch a file nor report a failure. -/
theorem ownerLookup_events (w : World) (apiKey videoId : Str) :
    ∀ e ∈ (getVideoOwnerChannelId w apiKey videoId).1,
      e.touchesFile = false ∧ e.isFailure = false := by
  intro e he
  simp only [getVideoOwnerChannelId] at he
  split at he
  · simp at he; subst he; exact ⟨rfl, rfl⟩
  · split at he
    · simp at he; subst he; exact ⟨rfl, rfl⟩
    · split at he
      · simp at he; rcases he with he | he <;> subst he <;> exact ⟨rfl, rfl⟩
      · split at he <;>
        · simp at he; rcases he with he | he <;> subst he <;> exact ⟨rfl, rfl⟩

theorem commentLoop_events (owner : Str) (items : List Item) :
    ∀ e ∈ commentLoop owner items, e.isFailure = false := by
  intro e he
  induction items with
  | nil => simp [commentLoop] at he
  | cons item rest ih =>
    simp only [commentLoop] at he
    split at he
    · exact ih he
    · simp only [List.mem_cons, List.mem_append] at he
      rcases he with he | he | he
      · subst he; rfl
      · split at he
        · simp at he; subst he; rfl
        · simp at he
      · exact ih he

theorem main_of_reaches (w : World) (owner : Str) (items : List Item)
    (h : ReachesWriter w owner items) :
    ∃ pre, (∀ e ∈ pre, e.touchesFile = false ∧ e.isFailure = false) ∧
      main w = pre ++ writeTail owner items := by
  obtain ⟨hd, hk, videoID, resp, body, hv, ho, hg, hb, hu, hc1, hc2⟩ := h
  have hev := ownerLookup_events w w.apiKey videoID
  obtain ⟨ev, r, hr⟩ : ∃ ev r, getVideoOwnerChannelId w w.apiKey videoID = (ev, r) :=
    ⟨_, _, rfl⟩
  rw [hr] at ho hev
  simp only at ho hev
  subst ho
  refine ⟨.print "Enter YouTube video URL: ".toList :: (ev ++
    [.httpGet (commentThreadsUrl w.apiKey videoID), .printlnStatus resp.StatusCode,
     .unmarshal "ytResponse".toList none]), ?_, ?_⟩
  · intro e he
    simp at he
    rcases he with he | he | he | he | he
    · subst he; exact ⟨rfl, rfl⟩
    · exact hev e he
    · subst he; exact ⟨rfl, rfl⟩
    · subst he; exact ⟨rfl, rfl⟩
    · subst he; exact ⟨rfl, rfl⟩
  · simp only [main, hd, hk, if_false, hv, hr, hg, hb, hu, writeStage, hc1, hc2, writeTail]
    simp

theorem written_allFile_writeTail (owner : Str) (items : List Item) :
    written allFile (writeTail owner items)
      = header :: ((items.filter (Item.notBy owner)).map Item.record) := by
  have hk : ¬ (koreanFile = allFile) := by decide
  simp [writeTail, written, hk, written_append, written_allFile_commentLoop]

theorem written_koreanFile_writeTail (owner : Str) (items : List Item) :
    written koreanFile (writeTail owner items)
      = header :: (((items.filter (Item.notBy owner)).filter
          (fun item => MatchString item.comment.TextDisplay)).map Item.record) := by
  have hk : ¬ (allFile = koreanFile) := by decide
  simp [writeTail, written, hk, written_append, written_koreanFile_commentLoop]

theorem fileAfter_writeTail (name owner : Str) (items : List Item)
    (hname : name = allFile ∨ name = koreanFile) :
    ((writeTail owner items).foldl (fileStep name) ⟨none, []⟩).disk
      = some (csvWriteAll (written name (writeTail owner items))) := by
  have hk : ¬ (allFile = koreanFile) := by decide
  have hk2 : ¬ (koreanFile = allFile) := by decide
  rcases hname with hn | hn <;> subst hn <;>
    simp [writeTail, fileStep, hk, hk2, List.foldl_append, foldl_fileStep_commentLoop, written,
      written_append, csvWriteAll, csvWriteAll_append]

/-- What a run that reaches the loop leaves: the records passed to each CSV
writer, and the content of each file. -/
theorem outputs_of_reaches (w : World) (owner : Str) (items : List Item)
    (h : ReachesWriter w owner items) :
    written allFile (main w) = header :: ((items.filter (Item.notBy owner)).map Item.record) ∧
    written koreanFile (main w) = header :: (((items.filter (Item.notBy owner)).filter
          (fun item => MatchString item.comment.TextDisplay)).map Item.record) ∧
    fileAfter allFile (main w) = some (csvWriteAll (written allFile (main w))) ∧
    fileAfter koreanFile (main w) = some (csvWriteAll (written koreanFile (main w))) ∧
    (∀ e ∈ main w, e.isFailure = false) := by
  obtain ⟨pre, hpre, hmain⟩ := main_of_reaches w owner items h
  have hw : ∀ name, written name (main w) = written name (writeTail owner items) := by
    intro name
    rw [hmain, written_append, written_of_not_touches name pre (fun e he => (hpre e he).1)]
    rfl
  have hf : ∀ name, name = allFile ∨ name = koreanFile →
      fileAfter name (main w) = some (csvWriteAll (written name (main w))) := by
    intro name hname
    rw [hw name, fileAfter, hmain, List.foldl_append,
      foldl_fileStep_of_not_touches name pre (fun e he => (hpre e he).1)]
    exact fileAfter_writeTail name owner items hname
  refine ⟨?_, ?_, hf _ (Or.inl rfl), hf _ (Or.inr rfl), ?_⟩
  · rw [hw, written_allFile_writeTail]
  · rw [hw, written_koreanFile_writeTail]
  · intro e he
    rw [hmain, List.mem_append] at he
    rcases he with he | he
    · exact (hpre e he).2
    · simp only [writeTail, List.mem_cons, List.mem_append] at he
      rcases he with he | he | he | he | he | he
      · subst he; rfl
      · subst he; rfl
      · subst he; rfl
      · subst he; rfl
      · exact commentLoop_events owner items e he
      · simp at he
        rcases he with he | he | he | he <;> subst he <;> rfl

theorem ownerLookup_cases (w : World) (apiKey videoId : Str) :
    (∃ e, getVideoOwnerChannelId w apiKey videoId
        = ([.httpGet (videoInfoUrl videoId apiKey)], [], some e)) ∨
    (∃ e, getVideoOwnerChannelId w apiKey videoId
        = ([.httpGet (videoInfoUrl videoId apiKey), .unmarshal "videoInfo".toList (some e)],
            [], some e)) ∨
    (∃ id, getVideoOwnerChannelId w apiKey videoId
        = ([.httpGet (videoInfoUrl videoId apiKey), .unmarshal "videoInfo".toList none],
            id, none)) ∨
    (getVideoOwnerChannelId w apiKey videoId
        = ([.httpGet (videoInfoUrl videoId apiKey), .unmarshal "videoInfo".toList none],
            [], some noVideoInformation)) := by
  simp only [getVideoOwnerChannelId]
  split
  · exact Or.inl ⟨_, rfl⟩
  · split
    · exact Or.inl ⟨_, rfl⟩
    · split
      · exact Or.inr (Or.inl ⟨_, rfl⟩)
      · split
        · exact Or.inr (Or.inr (Or.inl ⟨_, rfl⟩))
        · exact Or.inr (Or.inr (Or.inr rfl))

theorem commentLoop_writes (owner : Str) (items : List Item) :
    ∀ e ∈ commentLoop owner items, ∃ n r, e = .write n r := by
  intro e he
  induction items with
  | nil => simp [commentLoop] at he
  | cons item rest ih =>
    simp only [commentLoop] at he
    split at he
    · exact ih he
    · simp only [List.mem_cons, List.mem_append] at he
      rcases he with he | he | he
      · exact ⟨_, _, he⟩
      · split at he
        · simp at he; exact ⟨_, _, he⟩
        · simp at he
      · exact ih he

theorem fileAfter_none_of_no_output (name : Str) (tr : List Event)
    (h : ∀ e ∈ tr, e.isFileOutput = false) : fileAfter name tr = none := by
  have key : ∀ (tr : List Event) (st : FileState), (∀ e ∈ tr, e.isFileOutput = false) →
      st.disk = none → (tr.foldl (fileStep name) st).disk = none := by
    intro tr
    induction tr with
    | nil => intro st _ hst; exact hst
    | cons e t ih =>
      intro st h hst
      simp only [List.foldl_cons]
      apply ih _ (fun e he => h e (by simp [he]))
      have he := h e (by simp)
      cases e <;> simp_all [fileStep, Event.isFileOutput]
      split <;> simp_all
  exact key tr _ h rfl

theorem written_nil_of_no_output (name : Str) (tr : List Event)
    (h : ∀ e ∈ tr, e.isFileOutput = false) : written name tr = [] := by
  induction tr with
  | nil => rfl
  | cons e t ih =>
    have he := h e (by simp)
    have ht := ih (fun e he => h e (by simp [he]))
    cases e <;> simp_all [written, Event.isFileOutput]

theorem unmarshal_not_mem_commentLoop (owner : Str) (items : List Item) (target : Str)
    (err : Option Str) : Event.unmarshal target err ∉ commentLoop owner items := by
  intro h
  obtain ⟨n, r, hr⟩ := commentLoop_writes owner items _ h
  cases hr

/-- Every run in which a JSON body fails to decode: the failed decoding is the
last step but one, a diagnostic is the last, and no event creates or writes a
file. -/
theorem main_of_unmarshal_error (w : World) (target e : Str)
    (h : Event.unmarshal target (some e) ∈ main w) :
    (∀ ev ∈ main w, ev.isFileOutput = false) ∧
      ∃ pre msg, main w = pre ++ [.unmarshal target (some e), .println msg] ∧
        ∀ ev ∈ pre, ∃ s, ev = .print s ∨ ev = .httpGet s ∨ ev = .unmarshal s none
          ∨ ∃ c, ev = .printlnStatus c := by
  have key : ∀ tr, main w = tr → Event.unmarshal target (some e) ∈ tr →
      (∀ ev ∈ tr, ev.isFileOutput = false) ∧
      ∃ pre msg, tr = pre ++ [.unmarshal target (some e), .println msg] ∧
        ∀ ev ∈ pre, ∃ s, ev = .print s ∨ ev = .httpGet s ∨ ev = .unmarshal s none
          ∨ ∃ c, ev = .printlnStatus c := by
    intro tr hm
    simp only [main] at hm
    split at hm
    · subst hm; intro h; simp at h
    · split at hm
      · subst hm; intro h; simp at h
      · split at hm
        · subst hm; intro h; simp at h
        · rename_i videoID hv
          rcases ownerLookup_cases w w.apiKey videoID with ⟨e1, h1⟩ | ⟨e1, h1⟩ | ⟨id, h1⟩ | h1
          · rw [h1] at hm; simp only at hm
            subst hm; intro h; simp at h
          · rw [h1] at hm; simp only at hm
            subst hm; intro h
            simp at h
            obtain ⟨ht, he⟩ := h
            subst ht; subst he
            refine ⟨?_, ?_⟩
            · intro ev hev
              simp at hev
              rcases hev with hev | hev | hev | hev <;> subst hev <;> rfl
            · refine ⟨[.print "Enter YouTube video URL: ".toList,
                .httpGet (videoInfoUrl videoID w.apiKey)],
                ["Error getting video owner channel ID:".toList, e], by simp, ?_⟩
              intro ev hev
              simp at hev
              rcases hev with hev | hev
              · exact ⟨_, Or.inl hev⟩
              · exact ⟨_, Or.inr (Or.inl hev)⟩
          · rw [h1] at hm; simp only at hm
            split at hm
            · subst hm; intro h; simp at h
            · split at hm
              · subst hm; intro h; simp at h
              · split at hm
                · subst hm; intro h
                  simp at h
                  obtain ⟨ht, he⟩ := h
                  subst ht; subst he
                  refine ⟨?_, ?_⟩
                  · intro ev hev
                    simp at hev
                    rcases hev with hev | hev | hev | hev | hev | hev | hev <;> subst hev <;> rfl
                  · rename_i resp _ _ _ _ _ _
                    refine ⟨[.print "Enter YouTube video URL: ".toList,
                      .httpGet (videoInfoUrl videoID w.apiKey),
                      .unmarshal "videoInfo".toList none,
                      .httpGet (commentThreadsUrl w.apiKey videoID),
                      .printlnStatus resp.StatusCode],
                      ["Failed to unmarshal JSON:".toList, e], by simp, ?_⟩
                    intro ev hev
                    simp at hev
                    rcases hev with hev | hev | hev | hev | hev
                    · exact ⟨_, Or.inl hev⟩
                    · exact ⟨_, Or.inr (Or.inl hev)⟩
                    · exact ⟨_, Or.inr (Or.inr (Or.inl hev))⟩
                    · exact ⟨_, Or.inr (Or.inl hev)⟩
                    · exact ⟨[], Or.inr (Or.inr (Or.inr ⟨_, hev⟩))⟩
                · subst hm; intro h
                  exfalso
                  simp only [writeStage] at h
                  split at h
                  · simp at h
                  · split at h
                    · simp at h
                    · simp at h
                      exact unmarshal_not_mem_commentLoop _ _ _ _ h
          · rw [h1] at hm; simp only at hm
            subst hm; intro h; simp at h
  exact key (main w) rfl h

/-! ### `readLine` -/

theorem takeWhile_notNL (l rest : Str) (h : '\n' ∉ l) :
    (l ++ '\n' :: rest).takeWhile (· != '\n') = l ∧
    (l ++ '\n' :: rest).dropWhile (· != '\n') = '\n' :: rest := by
  induction l with
  | nil => simp
  | cons c t ih =>
    have hc : c ≠ '\n' := fun hc => h (by simp [hc])
    have ht : '\n' ∉ t := fun ht => h (by simp [ht])
    obtain ⟨h1, h2⟩ := ih ht
    have hb : (c != '\n') = true := by simpa using hc
    simp [List.takeWhile, List.dropWhile, hb, h1, h2]

theorem exists_firstNL (s : Str) (h : '\n' ∈ s) :
    ∃ l rest, s = l ++ '\n' :: rest ∧ '\n' ∉ l := by
  induction s with
  | nil => simp at h
  | cons c t ih =>
    by_cases hc : c = '\n'
    · exact ⟨[], t, by simp [hc], by simp⟩
    · have ht : '\n' ∈ t := by
        rcases List.mem_cons.mp h with h | h
        · exact absurd h.symm hc
        · exact h
      obtain ⟨l, rest, hs, hl⟩ := ih ht
      refine ⟨c :: l, rest, by simp [hs], ?_⟩
      simp only [List.mem_cons, not_or]
      exact ⟨fun h => hc h.symm, hl⟩

theorem readLine_split (l rest : Str) (h : '\n' ∉ l) :
    readLine (l ++ '\n' :: rest) = (normalizeNL (l ++ ['\n']), false, rest) := by
  obtain ⟨h1, h2⟩ := takeWhile_notNL l rest h
  simp only [readLine, h1, h2]

theorem normalizeNL_ne_nil (l : Str) : normalizeNL (l ++ ['\n']) ≠ [] := by
  simp only [normalizeNL]
  split <;> simp

theorem normalizeNL_length_le (l : Str) : (normalizeNL l).length ≤ l.length := by
  simp only [normalizeNL]
  split
  · rename_i r heq
    have := congrArg List.length heq
    simp at this
    simp; omega
  · exact le_refl _

theorem normalizeNL_cons (c : Char) (l : Str) (h : ¬ (c = '\r' ∧ l = [])) :
    normalizeNL (c :: (l ++ ['\n'])) = c :: normalizeNL (l ++ ['\n']) := by
  rcases List.eq_nil_or_concat l with hl | ⟨l0, d, hl⟩
  · subst hl
    have hc : c ≠ '\r' := fun hc => h ⟨hc, rfl⟩
    simp [normalizeNL]
    split
    · rename_i r heq
      simp at heq
      exact absurd heq.1 hc
    · rfl
  · subst hl
    simp only [normalizeNL]
    by_cases hd : d = '\r'
    · subst hd
      simp
    · simp
      split
      · rename_i r heq
        simp at heq
        exact absurd heq.1 hd
      · split
        · rename_i r heq
          simp at heq
          exact absurd heq.1 hd
        · rfl

theorem readLine_nil : readLine [] = ([], true, []) := by
  simp [readLine]

theorem readLine_nl (rest : Str) : readLine ('\n' :: rest) = (['\n'], false, rest) := by
  have := readLine_split [] rest (by simp)
  simpa [normalizeNL] using this

theorem readLine_crlf (rest : Str) : readLine ('\r' :: '\n' :: rest) = (['\n'], false, rest) := by
  have := readLine_split ['\r'] rest (by decide)
  simpa [normalizeNL] using this

/-- The state of the reader on a stream with a line feed. -/
theorem readLine_of_mem (s : Str) (h : '\n' ∈ s) :
    (readLine s).2.1 = false ∧ (readLine s).1 ≠ [] ∧
      (readLine s).1.length + (readLine s).2.2.length ≤ s.length := by
  obtain ⟨l, rest, hs, hl⟩ := exists_firstNL s h
  subst hs
  rw [readLine_split l rest hl]
  refine ⟨rfl, normalizeNL_ne_nil l, ?_⟩
  have := normalizeNL_length_le (l ++ ['\n'])
  simp at this ⊢
  omega

theorem readLine_cons (c : Char) (s : Str) (hc : c ≠ '\n')
    (hcr : ¬ (c = '\r' ∧ s.head? = some '\n')) (h : '\n' ∈ s) :
    readLine (c :: s) = (c :: (readLine s).1, false, (readLine s).2.2) := by
  obtain ⟨l, rest, hs, hl⟩ := exists_firstNL s h
  subst hs
  have hl2 : '\n' ∉ c :: l := by
    simp only [List.mem_cons, not_or]
    exact ⟨fun h => hc h.symm, hl⟩
  have h1 := readLine_split (c :: l) rest hl2
  rw [readLine_split l rest hl]
  simp only [List.cons_append] at h1
  rw [h1, normalizeNL_cons]
  rintro ⟨h2, h3⟩
  subst h3
  exact hcr ⟨h2, by simp⟩

/-! ### The quoted field loop -/

theorem quotedField_cons (fuel : Nat) (c : Char) (line inp buf : Str) (fields : List Str)
    (hc : c ≠ dquote) (hl : line ≠ []) :
    quotedField fuel (c :: line) inp buf fields = quotedField fuel line inp (buf ++ [c]) fields := by
  cases fuel with
  | zero => simp [quotedField]
  | succ n =>
    rw [quotedField, quotedField]
    simp only [indexChar, if_neg hc]
    cases hi : indexChar dquote line with
    | none => simp [hl]
    | some i => simp

theorem quoteBody_cons_dquote (t : Str) : quoteBody (dquote :: t) = dquote :: dquote :: quoteBody t := by
  simp [quoteBody, quoteChar]

theorem quoteBody_cons_of_ne (c : Char) (t : Str) (h : c ≠ dquote) :
    quoteBody (c :: t) = c :: quoteBody t := by
  simp [quoteBody, quoteChar, h]

theorem head_quoteBody_ne_nl (t tail : Str) (h : ∀ t', t ≠ '\n' :: t') :
    (quoteBody t ++ dquote :: tail).head? ≠ some '\n' := by
  cases t with
  | nil => simp [quoteBody]; decide
  | cons d t' =>
    by_cases hd : d = dquote
    · subst hd; rw [quoteBody_cons_dquote]; simp; decide
    · rw [quoteBody_cons_of_ne d t' hd]
      simp
      intro hdn
      exact h t' (by rw [hdn])

theorem mem_quoteBody_append (f tail : Str) (h : '\n' ∈ tail) :
    '\n' ∈ quoteBody f ++ dquote :: tail := by
  simp [h]

theorem quotedField_body (tail : Str) (htail : '\n' ∈ tail) (fields : List Str) :
    ∀ (f buf : Str) (fuel : Nat),
      (readLine (quoteBody f ++ dquote :: tail)).1.length
        + (readLine (quoteBody f ++ dquote :: tail)).2.2.length < fuel →
      ∃ fuel', (readLine (dquote :: tail)).1.length + (readLine (dquote :: tail)).2.2.length < fuel' ∧
        quotedField fuel (readLine (quoteBody f ++ dquote :: tail)).1
            (readLine (quoteBody f ++ dquote :: tail)).2.2 buf fields
          = quotedField fuel' (readLine (dquote :: tail)).1 (readLine (dquote :: tail)).2.2
              (buf ++ crlfToLf f) fields := by
  intro f
  induction f using crlfToLf.induct with
  | case1 t ih =>
    intro buf fuel hfuel
    have hq : quoteBody ('\r' :: '\n' :: t) = '\r' :: '\n' :: quoteBody t := by
      rw [quoteBody_cons_of_ne _ _ (by decide), quoteBody_cons_of_ne _ _ (by decide)]
    rw [hq] at hfuel ⊢
    simp only [List.cons_append, readLine_crlf] at hfuel ⊢
    have hsz := (readLine_of_mem _ (mem_quoteBody_append t tail htail)).2.2
    obtain ⟨n, rfl⟩ : ∃ n, fuel = n + 1 := ⟨fuel - 1, by omega⟩
    simp at hfuel
    obtain ⟨fuel', h1, h2⟩ := ih (buf ++ ['\n']) n (by simp at hsz; omega)
    refine ⟨fuel', h1, ?_⟩
    rw [quotedField]
    have hidx : indexChar dquote ['\n'] = none := by decide
    simp only [hidx]
    simp only [crlfToLf]
    rw [if_pos (by simp), h2]
    simp
  | case2 c t hneg ih =>
    intro buf fuel hfuel
    have hmem := mem_quoteBody_append t tail htail
    have hsz := (readLine_of_mem _ hmem).2.2
    have hne := (readLine_of_mem _ hmem).2.1
    have hcrlf : crlfToLf (c :: t) = c :: crlfToLf t := by
      rw [crlfToLf]
      intro tail' h1 h2
      exact hneg tail' h1 h2
    by_cases hnl : c = '\n'
    · subst hnl
      rw [quoteBody_cons_of_ne _ _ (by decide)] at hfuel ⊢
      simp only [List.cons_append, readLine_nl] at hfuel ⊢
      obtain ⟨n, rfl⟩ : ∃ n, fuel = n + 1 := ⟨fuel - 1, by omega⟩
      simp at hfuel
      obtain ⟨fuel', h1, h2⟩ := ih (buf ++ ['\n']) n (by simp at hsz; omega)
      refine ⟨fuel', h1, ?_⟩
      rw [quotedField]
      have hidx : indexChar dquote ['\n'] = none := by decide
      simp only [hidx]
      rw [if_pos (by simp), h2, hcrlf]
      simp
    · by_cases hdq : c = dquote
      · subst hdq
        rw [quoteBody_cons_dquote] at hfuel ⊢
        have hr : readLine (dquote :: dquote :: (quoteBody t ++ dquote :: tail))
            = (dquote :: dquote :: (readLine (quoteBody t ++ dquote :: tail)).1, false,
                (readLine (quoteBody t ++ dquote :: tail)).2.2) := by
          have hq1 : dquote ≠ '\r' := by decide
          rw [readLine_cons dquote _ (by decide) (fun h => hq1 h.1) (by simp [htail]),
            readLine_cons dquote _ (by decide) (fun h => hq1 h.1) hmem]
        simp only [List.cons_append, hr] at hfuel ⊢
        obtain ⟨n, rfl⟩ : ∃ n, fuel = n + 1 := ⟨fuel - 1, by omega⟩
        simp at hfuel
        obtain ⟨fuel', h1, h2⟩ := ih (buf ++ [dquote]) n (by omega)
        refine ⟨fuel', h1, ?_⟩
        rw [quotedField]
        simp only [indexChar, if_true, List.take_zero, List.append_nil, zero_add, List.drop_succ_cons,
          List.drop_zero]
        rw [h2, hcrlf]
        simp
      · rw [quoteBody_cons_of_ne c t hdq] at hfuel ⊢
        have hr : readLine (c :: (quoteBody t ++ dquote :: tail))
            = (c :: (readLine (quoteBody t ++ dquote :: tail)).1, false,
                (readLine (quoteBody t ++ dquote :: tail)).2.2) := by
          apply readLine_cons c _ hnl _ hmem
          rintro ⟨h1, h2⟩
          exact head_quoteBody_ne_nl t tail (fun t' ht' => hneg t' h1 ht') h2
        simp only [List.cons_append, hr] at hfuel ⊢
        rw [quotedField_cons fuel c _ _ _ _ hdq hne]
        simp at hfuel
        obtain ⟨fuel', h1, h2⟩ := ih (buf ++ [c]) fuel (by omega)
        refine ⟨fuel', h1, ?_⟩
        rw [h2, hcrlf]
        simp
  | case3 =>
    intro buf fuel hfuel
    exact ⟨fuel, by simpa [quoteBody] using hfuel, by simp [quoteBody, crlfToLf]⟩

/-! ### Fields -/

theorem quotedField_close_comma (n : Nat) (tl buf : Str) (fields : List Str) (h : '\n' ∈ tl) :
    quotedField (n + 1) (readLine (dquote :: ',' :: tl)).1 (readLine (dquote :: ',' :: tl)).2.2
        buf fields
      = parseField n (readLine tl).1 (readLine tl).2.2 (fields ++ [buf]) := by
  have hq1 : dquote ≠ '\r' := by decide
  have hc1 : ',' ≠ '\r' := by decide
  rw [readLine_cons dquote _ (by decide) (fun h => hq1 h.1) (by simp [h]),
    readLine_cons ',' _ (by decide) (fun h => hc1 h.1) h]
  rw [quotedField]
  have hcd : ¬ (',' = dquote) := by decide
  simp [indexChar, hcd]

theorem quotedField_close_nl (n : Nat) (tl buf : Str) (fields : List Str) :
    quotedField (n + 1) (readLine (dquote :: '\n' :: tl)).1 (readLine (dquote :: '\n' :: tl)).2.2
        buf fields
      = .ok (fields ++ [buf], tl) := by
  have hq1 : dquote ≠ '\r' := by decide
  rw [readLine_cons dquote _ (by decide) (fun h => hq1 h.1) (by simp), readLine_nl]
  rw [quotedField]
  have hcd : ¬ ('\n' = dquote) := by decide
  have hcc : ¬ ('\n' = ',') := by decide
  simp [indexChar, hcd, hcc, lengthNL]

theorem readLine_append_plain (f x : Str) (hf : ∀ c ∈ f, isSpecial c = false) (hx : '\n' ∈ x) :
    readLine (f ++ x) = (f ++ (readLine x).1, false, (readLine x).2.2) := by
  induction f with
  | nil =>
    have := (readLine_of_mem x hx).1
    simp only [List.nil_append]
    rw [← this]
  | cons c t ih =>
    have hc := hf c (by simp)
    have ht := ih (fun c hc => hf c (by simp [hc]))
    simp only [isSpecial, Bool.or_eq_false_iff, beq_eq_false_iff_ne, ne_eq] at hc
    have hmem : '\n' ∈ t ++ x := by simp [hx]
    simp only [List.cons_append]
    rw [readLine_cons c _ hc.1.1.1 (fun h => hc.1.1.2 h.1) hmem, ht]

theorem indexChar_append (c : Char) (f x : Str) (h : c ∉ f) :
    indexChar c (f ++ c :: x) = some f.length := by
  induction f with
  | nil => simp [indexChar]
  | cons d t ih =>
    have hd : d ≠ c := fun hd => h (by simp [hd])
    have ht := ih (fun ht => h (by simp [ht]))
    simp [indexChar, hd, ht]

theorem indexChar_none (c : Char) (l : Str) (h : c ∉ l) : indexChar c l = none := by
  induction l with
  | nil => rfl
  | cons d t ih =>
    have hd : d ≠ c := fun hd => h (by simp [hd])
    have ht := ih (fun ht => h (by simp [ht]))
    simp [indexChar, hd, ht]

theorem plain_not_mem (f : Str) (hf : ∀ c ∈ f, isSpecial c = false) :
    '\n' ∉ f ∧ '\r' ∉ f ∧ dquote ∉ f ∧ ',' ∉ f := by
  refine ⟨?_, ?_, ?_, ?_⟩ <;>
  · intro h
    have := hf _ h
    revert this
    decide

theorem head_plain (f x : Str) (c : Char) (hf : ∀ c ∈ f, isSpecial c = false) (hc : c ≠ dquote) :
    (f ++ c :: x).head? ≠ some dquote := by
  cases f with
  | nil => simpa using hc
  | cons d t =>
    have := (plain_not_mem _ hf).2.2.1
    simp at this ⊢
    exact fun h => this.1 h.symm

theorem parseField_plain_comma (n : Nat) (f tl : Str) (fields : List Str)
    (hf : ∀ c ∈ f, isSpecial c = false) (h : '\n' ∈ tl) :
    parseField (n + 1) (readLine (f ++ ',' :: tl)).1 (readLine (f ++ ',' :: tl)).2.2 fields
      = parseField n (readLine tl).1 (readLine tl).2.2 (fields ++ [f]) := by
  have hc1 : ',' ≠ '\r' := by decide
  rw [readLine_append_plain f _ hf (by simp [h]),
    readLine_cons ',' _ (by decide) (fun h => hc1 h.1) h]
  obtain ⟨_, _, hdq, hcomma⟩ := plain_not_mem f hf
  rw [parseField]
  have hhead := head_plain f (readLine tl).1 ',' hf (by decide)
  simp only [hhead, ne_eq, not_false_eq_true, or_true, if_true]
  rw [indexChar_append ',' f _ hcomma]
  simp [hdq]

theorem parseField_plain_nl (n : Nat) (f tl : Str) (fields : List Str)
    (hf : ∀ c ∈ f, isSpecial c = false) :
    parseField (n + 1) (readLine (f ++ '\n' :: tl)).1 (readLine (f ++ '\n' :: tl)).2.2 fields
      = .ok (fields ++ [f], tl) := by
  rw [readLine_append_plain f _ hf (by simp), readLine_nl]
  obtain ⟨hnl, _, hdq, hcomma⟩ := plain_not_mem f hf
  rw [parseField]
  have hhead := head_plain f [] '\n' hf (by decide)
  simp only [hhead, ne_eq, not_false_eq_true, or_true, if_true]
  have hidx : indexChar ',' (f ++ ['\n']) = none := by
    apply indexChar_none
    simp [hcomma]
  simp [hidx, lengthNL, hdq]

theorem parseField_quoted_start (n : Nat) (s : Str) (fields : List Str) (h : '\n' ∈ s) :
    parseField (n + 1) (readLine (dquote :: s)).1 (readLine (dquote :: s)).2.2 fields
      = quotedField n (readLine s).1 (readLine s).2.2 [] fields := by
  have hq1 : dquote ≠ '\r' := by decide
  rw [readLine_cons dquote _ (by decide) (fun h => hq1 h.1) h]
  rw [parseField]
  simp

theorem plain_of_not_needsQuotes (f : Str) (h : fieldNeedsQuotes f = false) :
    ∀ c ∈ f, isSpecial c = false := by
  intro c hc
  simp only [fieldNeedsQuotes] at h
  split at h
  · rename_i hnil; subst hnil; simp at hc
  · split at h
    · cases h
    · split at h
      · cases h
      · rename_i hany
        simp only [List.any_eq_true, not_exists, not_and, Bool.not_eq_true] at hany
        exact hany c hc

theorem crlfToLf_of_no_cr (f : Str) (h : '\r' ∉ f) : crlfToLf f = f := by
  induction f using crlfToLf.induct with
  | case1 t _ => simp at h
  | case2 c t hneg ih =>
    rw [crlfToLf]
    · rw [ih (fun ht => h (by simp [ht]))]
    · exact hneg
  | case3 => rfl

theorem crlfToLf_of_not_hasCRLF (f : Str) (h : hasCRLF f = false) : crlfToLf f = f := by
  induction f using crlfToLf.induct with
  | case1 t _ => simp [hasCRLF] at h
  | case2 c t hneg ih =>
    rw [crlfToLf]
    · rw [hasCRLF] at h
      · rw [ih h]
      · exact hneg
    · exact hneg
  | case3 => rfl

/-! ### Records -/

theorem parseField_writeField_comma (f tl : Str) (fields : List Str) (h : '\n' ∈ tl) (fuel : Nat)
    (hfuel : (readLine (writeField f ++ ',' :: tl)).1.length
      + (readLine (writeField f ++ ',' :: tl)).2.2.length < fuel) :
    ∃ fuel', (readLine tl).1.length + (readLine tl).2.2.length < fuel' ∧
      parseField fuel (readLine (writeField f ++ ',' :: tl)).1
          (readLine (writeField f ++ ',' :: tl)).2.2 fields
        = parseField fuel' (readLine tl).1 (readLine tl).2.2 (fields ++ [crlfToLf f]) := by
  obtain ⟨n, rfl⟩ : ∃ n, fuel = n + 1 := ⟨fuel - 1, by omega⟩
  have hc1 : ',' ≠ '\r' := by decide
  have hq1 : dquote ≠ '\r' := by decide
  cases hq : fieldNeedsQuotes f with
  | false =>
    have hplain := plain_of_not_needsQuotes f hq
    have hw : writeField f = f := by simp [writeField, hq]
    rw [hw] at hfuel ⊢
    rw [parseField_plain_comma n f tl fields hplain h,
      crlfToLf_of_no_cr f (plain_not_mem f hplain).2.1]
    refine ⟨n, ?_, rfl⟩
    rw [readLine_append_plain f _ hplain (by simp [h]),
      readLine_cons ',' _ (by decide) (fun h => hc1 h.1) h] at hfuel
    simp at hfuel
    omega
  | true =>
    have hs : writeField f ++ ',' :: tl = dquote :: (quoteBody f ++ dquote :: (',' :: tl)) := by
      simp [writeField, hq]
    rw [hs] at hfuel ⊢
    have hmem : '\n' ∈ quoteBody f ++ dquote :: (',' :: tl) := by simp [h]
    rw [parseField_quoted_start n _ fields hmem]
    rw [readLine_cons dquote _ (by decide) (fun h => hq1 h.1) hmem] at hfuel
    simp at hfuel
    obtain ⟨fuel1, h1, h2⟩ := quotedField_body (',' :: tl) (by simp [h]) fields f [] n (by omega)
    obtain ⟨m, rfl⟩ : ∃ m, fuel1 = m + 1 := ⟨fuel1 - 1, by omega⟩
    rw [h2, quotedField_close_comma m tl _ fields h]
    refine ⟨m, ?_, by simp⟩
    rw [readLine_cons dquote _ (by decide) (fun h => hq1 h.1) (by simp [h]),
      readLine_cons ',' _ (by decide) (fun h => hc1 h.1) h] at h1
    simp at h1
    omega

theorem parseField_writeField_nl (f tl : Str) (fields : List Str) (fuel : Nat)
    (hfuel : (readLine (writeField f ++ '\n' :: tl)).1.length
      + (readLine (writeField f ++ '\n' :: tl)).2.2.length < fuel) :
    parseField fuel (readLine (writeField f ++ '\n' :: tl)).1
        (readLine (writeField f ++ '\n' :: tl)).2.2 fields
      = .ok (fields ++ [crlfToLf f], tl) := by
  obtain ⟨n, rfl⟩ : ∃ n, fuel = n + 1 := ⟨fuel - 1, by omega⟩
  have hq1 : dquote ≠ '\r' := by decide
  cases hq : fieldNeedsQuotes f with
  | false =>
    have hplain := plain_of_not_needsQuotes f hq
    have hw : writeField f = f := by simp [writeField, hq]
    rw [hw]
    rw [parseField_plain_nl n f tl fields hplain,
      crlfToLf_of_no_cr f (plain_not_mem f hplain).2.1]
  | true =>
    have hs : writeField f ++ '\n' :: tl = dquote :: (quoteBody f ++ dquote :: ('\n' :: tl)) := by
      simp [writeField, hq]
    rw [hs] at hfuel ⊢
    have hmem : '\n' ∈ quoteBody f ++ dquote :: ('\n' :: tl) := by simp
    rw [parseField_quoted_start n _ fields hmem]
    rw [readLine_cons dquote _ (by decide) (fun h => hq1 h.1) hmem] at hfuel
    simp at hfuel
    obtain ⟨fuel1, h1, h2⟩ := quotedField_body ('\n' :: tl) (by simp) fields f [] n (by omega)
    obtain ⟨m, rfl⟩ : ∃ m, fuel1 = m + 1 := ⟨fuel1 - 1, by omega⟩
    rw [h2, quotedField_close_nl m tl _ fields]
    simp

theorem csvWrite_pair_append (a t tl : Str) :
    csvWrite [a, t] ++ tl = writeField a ++ ',' :: (writeField t ++ '\n' :: tl) := by
  simp [csvWrite, writeFields]

theorem mem_nl_field (t tl : Str) : '\n' ∈ writeField t ++ '\n' :: tl := by
  simp

theorem parseField_record (a t tl : Str) (fuel : Nat)
    (hfuel : (readLine (csvWrite [a, t] ++ tl)).1.length
      + (readLine (csvWrite [a, t] ++ tl)).2.2.length < fuel) :
    parseField fuel (readLine (csvWrite [a, t] ++ tl)).1 (readLine (csvWrite [a, t] ++ tl)).2.2 []
      = .ok ([crlfToLf a, crlfToLf t], tl) := by
  rw [csvWrite_pair_append] at hfuel ⊢
  obtain ⟨fuel', h1, h2⟩ :=
    parseField_writeField_comma a _ [] (mem_nl_field t tl) fuel hfuel
  rw [h2, parseField_writeField_nl t tl _ fuel' h1]
  simp

theorem lengthNL_le (b : Str) : lengthNL b ≤ 1 := by
  simp only [lengthNL]
  split <;> omega

theorem firstLine_length (a t tl : Str) :
    2 ≤ (readLine (csvWrite [a, t] ++ tl)).1.length := by
  rw [csvWrite_pair_append]
  have hmem := mem_nl_field t tl
  have hne := (readLine_of_mem _ hmem).2.1
  have hpos : 0 < (readLine (writeField t ++ '\n' :: tl)).1.length := List.length_pos.mpr hne
  have hc1 : ',' ≠ '\r' := by decide
  have hq1 : dquote ≠ '\r' := by decide
  cases hq : fieldNeedsQuotes a with
  | false =>
    have hplain := plain_of_not_needsQuotes a hq
    have hw : writeField a = a := by simp [writeField, hq]
    rw [hw]
    rw [readLine_append_plain a _ hplain (by simp),
      readLine_cons ',' _ (by decide) (fun h => hc1 h.1) hmem]
    simp
    omega
  | true =>
    have hs : writeField a ++ ',' :: (writeField t ++ '\n' :: tl)
        = dquote :: (quoteBody a ++ dquote :: (',' :: (writeField t ++ '\n' :: tl))) := by
      simp [writeField, hq]
    rw [hs]
    have hmem2 : '\n' ∈ quoteBody a ++ dquote :: (',' :: (writeField t ++ '\n' :: tl)) := by simp
    have hne2 := (readLine_of_mem _ hmem2).2.1
    have hpos2 := List.length_pos.mpr hne2
    rw [readLine_cons dquote _ (by decide) (fun h => hq1 h.1) hmem2]
    simp
    omega

theorem readRecord_record (a t tl : Str) (n : Nat) :
    readRecord (n + 1) (csvWrite [a, t] ++ tl) = .ok (some ([crlfToLf a, crlfToLf t], tl)) := by
  have hmem : '\n' ∈ csvWrite [a, t] ++ tl := by simp [csvWrite]
  have heof := (readLine_of_mem _ hmem).1
  have hlen := firstLine_length a t tl
  have hnl := lengthNL_le (readLine (csvWrite [a, t] ++ tl)).1
  rw [readRecord]
  simp only [heof, Bool.false_eq_true, if_false]
  rw [if_neg (by omega), parseField_record a t tl _ (by omega)]

theorem readRecord_nil (n : Nat) : readRecord (n + 1) [] = .ok none := by
  rw [readRecord]
  simp [readLine_nil]

theorem readAllLoop_csvWriteAll (rows : List (List Str)) (h : ∀ r ∈ rows, r.length = 2) :
    ∀ (fuel fieldsPerRecord : Nat) (records : List (List Str)), rows.length < fuel →
      fieldsPerRecord = 0 ∨ fieldsPerRecord = 2 →
      readAllLoop fuel (csvWriteAll rows) fieldsPerRecord records
        = .ok (records ++ rows.map (List.map crlfToLf)) := by
  induction rows with
  | nil =>
    intro fuel fpr records hfuel _
    obtain ⟨n, rfl⟩ : ∃ n, fuel = n + 1 := ⟨fuel - 1, by omega⟩
    rw [readAllLoop]
    simp [csvWriteAll, readRecord_nil]
  | cons r rest ih =>
    intro fuel fpr records hfuel hfpr
    obtain ⟨n, rfl⟩ : ∃ n, fuel = n + 1 := ⟨fuel - 1, by omega⟩
    have hr := h r (by simp)
    obtain ⟨a, t, rfl⟩ : ∃ a t, r = [a, t] := by
      match r, hr with
      | [a, t], _ => exact ⟨a, t, rfl⟩
    rw [readAllLoop]
    simp only [csvWriteAll]
    rw [readRecord_record a t (csvWriteAll rest)]
    simp only [List.length_cons, List.length_nil]
    have hcheck : ¬ (fpr > 0 ∧ (0 + 1 + 1 : Nat) ≠ fpr) := by
      rcases hfpr with h0 | h2 <;> omega
    rw [if_neg hcheck]
    rw [ih (fun r hr => h r (by simp [hr])) n _ _ (by simp at hfuel; omega)
      (by rcases hfpr with h0 | h2 <;> simp [*])]
    simp

theorem length_csvWriteAll (rows : List (List Str)) : rows.length ≤ (csvWriteAll rows).length := by
  induction rows with
  | nil => simp
  | cons r rest ih => simp [csvWriteAll, csvWrite]; omega

/-- Reading back what the writer wrote, for records of two fields: every
carriage return, line feed pair inside a field comes back as a line feed, and
nothing else changes. -/
theorem ReadAll_csvWriteAll (rows : List (List Str)) (h : ∀ r ∈ rows, r.length = 2) :
    ReadAll (csvWriteAll rows) = .ok (rows.map (List.map crlfToLf)) := by
  have := readAllLoop_csvWriteAll rows h ((csvWriteAll rows).length + 1) 0 []
    (by have := length_csvWriteAll rows; omega) (Or.inl rfl)
  simpa [ReadAll] using this

/-! ### The loop bounds of the reader are enough -/

theorem dropWhile_nil_takeWhile (s : Str) (h : s.dropWhile (· != '\n') = []) :
    s.takeWhile (· != '\n') = s := by
  have := List.takeWhile_append_dropWhile (· != '\n') s
  rw [h, List.append_nil] at this
  exact this

theorem dropTrailingCR_length_le (l : Str) : (dropTrailingCR l).length ≤ l.length := by
  simp only [dropTrailingCR]
  split
  · simp
  · exact le_refl _

theorem readLine_size (s : Str) :
    (readLine s).1.length + (readLine s).2.2.length ≤ s.length := by
  by_cases h : '\n' ∈ s
  · exact (readLine_of_mem s h).2.2
  · have hd : s.dropWhile (· != '\n') = [] := by
      rw [List.dropWhile_eq_nil_iff]
      intro c hc
      have : c ≠ '\n' := fun hcn => h (hcn ▸ hc)
      simpa using this
    have ht := dropWhile_nil_takeWhile s hd
    simp only [readLine, hd, ht]
    split
    · simp
    · have h1 := normalizeNL_length_le (dropTrailingCR s)
      have h2 := dropTrailingCR_length_le s
      simp only [List.length_nil, add_zero]
      omega

theorem readLine_consumes (s : Str) (h : (readLine s).2.1 = false) :
    (readLine s).2.2.length < s.length := by
  by_cases hm : '\n' ∈ s
  · have h1 := (readLine_of_mem s hm).2.2
    have h2 := List.length_pos.mpr (readLine_of_mem s hm).2.1
    omega
  · have hd : s.dropWhile (· != '\n') = [] := by
      rw [List.dropWhile_eq_nil_iff]
      intro c hc
      have : c ≠ '\n' := fun hcn => hm (hcn ▸ hc)
      simpa using this
    have ht := dropWhile_nil_takeWhile s hd
    simp only [readLine, hd, ht] at h ⊢
    split at h
    · cases h
    · rename_i hs
      simp only [hs, if_false, List.length_nil]
      exact List.length_pos.mpr hs

theorem indexChar_lt (c : Char) (l : Str) (i : Nat) (h : indexChar c l = some i) :
    i < l.length := by
  induction l generalizing i with
  | nil => simp [indexChar] at h
  | cons d t ih =>
    simp only [indexChar] at h
    split at h
    · cases h; simp
    · cases hi : indexChar c t with
      | none => simp [hi] at h
      | some k =>
        simp [hi] at h
        subst h
        have := ih k hi
        simp; omega

/-- The bound `len(line) + len(inp) + 1` is enough for the field loops, and
they never give back more input than they got. -/
theorem parse_bound (fuel : Nat) :
    (∀ line inp fields, line.length + inp.length < fuel →
      parseField fuel line inp fields ≠ .error .outOfFuel ∧
      ∀ r rest, parseField fuel line inp fields = .ok (r, rest) → rest.length ≤ inp.length) ∧
    (∀ line inp buf fields, line.length + inp.length < fuel →
      quotedField fuel line inp buf fields ≠ .error .outOfFuel ∧
      ∀ r rest, quotedField fuel line inp buf fields = .ok (r, rest) →
        rest.length ≤ inp.length) := by
  induction fuel with
  | zero =>
    exact ⟨fun _ _ _ h => absurd h (by omega), fun _ _ _ _ h => absurd h (by omega)⟩
  | succ n ih =>
    obtain ⟨ihp, ihq⟩ := ih
    constructor
    · intro line inp fields hlt
      rw [parseField]
      split
      · cases hi : indexChar ',' line with
        | some i =>
          have hil := indexChar_lt _ _ _ hi
          simp only
          split
          · exact ⟨by simp, by intro r rest h; cases h⟩
          · exact ihp _ _ _ (by simp; omega)
        | none =>
          simp only
          split
          · exact ⟨by simp, by intro r rest h; cases h⟩
          · refine ⟨by simp, ?_⟩
            intro r rest h
            simp only [Except.ok.injEq, Prod.mk.injEq] at h
            rw [← h.2]
      · rename_i hq
        have hne : line ≠ [] := fun h => hq (Or.inl h)
        have hpos := List.length_pos.mpr hne
        exact ihq _ _ _ _ (by simp; omega)
    · intro line inp buf fields hlt
      rw [quotedField]
      cases hi : indexChar dquote line with
      | some i =>
        have hil := indexChar_lt _ _ _ hi
        simp only
        cases hl : line.drop (i + 1) with
        | nil =>
          refine ⟨by simp, ?_⟩
          intro r rest h
          simp only [Except.ok.injEq, Prod.mk.injEq] at h
          rw [← h.2]
        | cons c l2 =>
          have hlen : l2.length + 1 = line.length - (i + 1) := by
            have := congrArg List.length hl
            simp at this
            omega
          simp only
          split
          · exact ihq _ _ _ _ (by omega)
          · split
            · exact ihp _ _ _ (by omega)
            · split
              · refine ⟨by simp, ?_⟩
                intro r rest h
                simp only [Except.ok.injEq, Prod.mk.injEq] at h
                rw [← h.2]
              · exact ⟨by simp, by intro r rest h; cases h⟩
      | none =>
        simp only
        split
        · rename_i hne
          have hpos := List.length_pos.mpr hne
          have hsz := readLine_size inp
          obtain ⟨h1, h2⟩ := ihq (readLine inp).1 (readLine inp).2.2 (buf ++ line) fields (by omega)
          refine ⟨h1, ?_⟩
          intro r rest h
          have := h2 r rest h
          omega
        · exact ⟨by simp, by intro r rest h; cases h⟩

theorem readRecord_bound (fuel : Nat) : ∀ inp : Str, inp.length < fuel →
    readRecord fuel inp ≠ .error .outOfFuel ∧
    ∀ r rest, readRecord fuel inp = .ok (some (r, rest)) → rest.length < inp.length := by
  induction fuel with
  | zero => intro inp h; omega
  | succ n ih =>
    intro inp hlt
    rw [readRecord]
    split
    · exact ⟨by simp, by intro r rest h; simp at h⟩
    · rename_i heof
      have hcons := readLine_consumes inp (by simpa using heof)
      split
      · obtain ⟨h1, h2⟩ := ih (readLine inp).2.2 (by omega)
        refine ⟨h1, ?_⟩
        intro r rest h
        have := h2 r rest h
        omega
      · obtain ⟨h1, h2⟩ := (parse_bound ((readLine inp).1.length + (readLine inp).2.2.length + 1)).1
          (readLine inp).1 (readLine inp).2.2 [] (by omega)
        split
        · rename_i e he
          refine ⟨?_, by intro r rest h; cases h⟩
          intro h
          simp only [Except.error.injEq] at h
          subst h
          exact h1 he
        · rename_i r he
          refine ⟨by simp, ?_⟩
          intro r2 rest h
          simp only [Except.ok.injEq, Option.some.injEq] at h
          subst h
          have := h2 r2 rest he
          omega

theorem readAllLoop_bound (fuel : Nat) : ∀ (inp : Str) (fieldsPerRecord : Nat)
    (records : List (List Str)), inp.length < fuel →
    readAllLoop fuel inp fieldsPerRecord records ≠ .error .outOfFuel := by
  induction fuel with
  | zero => intro inp _ _ h; omega
  | succ n ih =>
    intro inp fpr records hlt
    rw [readAllLoop]
    obtain ⟨h1, h2⟩ := readRecord_bound (inp.length + 1) inp (by omega)
    split
    · rename_i e he
      intro h
      simp only [Except.error.injEq] at h
      subst h
      exact h1 he
    · simp
    · rename_i record rest he
      split
      · simp
      · exact ih _ _ _ (by have := h2 record rest he; omega)

/-- The reader is total: on every input `ReadAll` gives records or a Go error,
the bounds of the model never run out. -/
theorem ReadAll_ne_outOfFuel (content : Str) : ReadAll content ≠ .error .outOfFuel :=
  readAllLoop_bound _ content 0 [] (by omega)

/-! ## The claims -/

theorem filter_notBy_remove (o : Str) (pre post : List Item) (c : Item)
    (hc : c.comment.AuthorChannelId.Value = o) :
    (pre ++ c :: post).filter (Item.notBy o) = (pre ++ post).filter (Item.notBy o) := by
  simp [List.filter_append, List.filter_cons, Item.notBy, hc]

/-- C1: in a run that reaches the loop with owner `o` and comments `cs`, the
records written to `comments_all.csv` are the header followed by the (author,
text) pairs of the comments of `cs` whose author channel differs from `o`, in
the order of `cs`, one record each, and that is the content of the file; a run
on `cs` with one owner-authored comment removed, or with all of them removed,
leaves the same two outputs. -/
theorem all_output_rows (w : World) (o : Str) (cs : List Item) (h : ReachesWriter w o cs) :
    written allFile (main w) = header :: ((cs.filter (Item.notBy o)).map Item.record) ∧
    fileAfter allFile (main w)
      = some (csvWriteAll (header :: ((cs.filter (Item.notBy o)).map Item.record))) ∧
    (∀ (w2 : World) (pre post : List Item) (c : Item), cs = pre ++ c :: post →
      c.comment.AuthorChannelId.Value = o → ReachesWriter w2 o (pre ++ post) →
      written allFile (main w2) = written allFile (main w) ∧
      written koreanFile (main w2) = written koreanFile (main w) ∧
      fileAfter allFile (main w2) = fileAfter allFile (main w) ∧
      fileAfter koreanFile (main w2) = fileAfter koreanFile (main w)) ∧
    (∀ w2 : World, ReachesWriter w2 o (cs.filter (Item.notBy o)) →
      written allFile (main w2) = written allFile (main w) ∧
      written koreanFile (main w2) = written koreanFile (main w) ∧
      fileAfter allFile (main w2) = fileAfter allFile (main w) ∧
      fileAfter koreanFile (main w2) = fileAfter koreanFile (main w)) := by
  obtain ⟨h1, h2, h3, h4, _⟩ := outputs_of_reaches w o cs h
  refine ⟨h1, by rw [h3, h1], ?_, ?_⟩
  · intro w2 pre post c hcs hc h'
    obtain ⟨g1, g2, g3, g4, _⟩ := outputs_of_reaches w2 o _ h'
    have hf := filter_notBy_remove o pre post c hc
    rw [← hcs] at hf
    have e1 : written allFile (main w2) = written allFile (main w) := by rw [g1, h1, hf]
    have e2 : written koreanFile (main w2) = written koreanFile (main w) := by rw [g2, h2, hf]
    exact ⟨e1, e2, by rw [g3, h3, e1], by rw [g4, h4, e2]⟩
  · intro w2 h'
    obtain ⟨g1, g2, g3, g4, _⟩ := outputs_of_reaches w2 o _ h'
    have hf : (cs.filter (Item.notBy o)).filter (Item.notBy o) = cs.filter (Item.notBy o) := by
      simp [List.filter_filter]
    have e1 : written allFile (main w2) = written allFile (main w) := by rw [g1, h1, hf]
    have e2 : written koreanFile (main w2) = written koreanFile (main w) := by rw [g2, h2, hf]
    exact ⟨e1, e2, by rw [g3, h3, e1], by rw [g4, h4, e2]⟩

theorem scenario_reaches : ReachesWriter scenarioWorld "ownerId".toList scenarioComments :=
  ⟨rfl, by decide, "abc123".toList, ⟨200, .ok []⟩, [], by decide, by decide, rfl, rfl, rfl, rfl, rfl⟩

/-- The scenario of the specification: the owner's "spam" is left out, Alice's
and Bob's rows are written in that order. -/
theorem all_output_rows_witness :
    ReachesWriter scenarioWorld "ownerId".toList scenarioComments ∧
    written allFile (main scenarioWorld)
      = [header, ["Alice".toList, "Hello world".toList], ["Bob".toList, "안녕하세요".toList]] :=
  ⟨scenario_reaches,
   (all_output_rows scenarioWorld "ownerId".toList scenarioComments scenario_reaches).1.trans
     (by decide)⟩

theorem MatchString_iff (s : Str) :
    MatchString s = true ↔ ∃ r ∈ s, 0xAC00 ≤ r.toNat ∧ r.toNat ≤ 0xD7A3 := by
  have h1 : hangulFirst.toNat = 0xAC00 := by decide
  have h2 : hangulLast.toNat = 0xD7A3 := by decide
  simp [MatchString, h1, h2]

/-- C2: in a run that reaches the loop, the records written to
`comments_korean.csv` are the header followed by the pairs of the non-owner
comments whose text has a code point in U+AC00..U+D7A3, in order; the data
rows are the data rows of `comments_all.csv` whose text field matches, in the
same relative order; a non-owner comment is among them iff its text has at
least one such code point. -/
theorem korean_output_rows (w : World) (o : Str) (cs : List Item) (h : ReachesWriter w o cs) :
    written koreanFile (main w) = header :: (((cs.filter (Item.notBy o)).filter
        (fun c => MatchString c.comment.TextDisplay)).map Item.record) ∧
    (written koreanFile (main w)).drop 1
      = ((written allFile (main w)).drop 1).filter (fun r => MatchString (r.getD 1 [])) ∧
    List.Sublist (written koreanFile (main w)) (written allFile (main w)) ∧
    (∀ c ∈ cs, Item.notBy o c = true →
      (c.record ∈ (written koreanFile (main w)).drop 1
        ↔ ∃ r ∈ c.comment.TextDisplay, 0xAC00 ≤ r.toNat ∧ r.toNat ≤ 0xD7A3)) ∧
    (hangulFirst.toNat = 0xAC00 ∧ hangulLast.toNat = 0xD7A3) ∧
    fileAfter koreanFile (main w) = some (csvWriteAll (written koreanFile (main w))) := by
  obtain ⟨h1, h2, _, h4, _⟩ := outputs_of_reaches w o cs h
  refine ⟨h2, ?_, ?_, ?_, ⟨by decide, by decide⟩, h4⟩
  · rw [h1, h2]
    simp only [List.drop_succ_cons, List.drop_zero, List.filter_map]
    rfl
  · rw [h1, h2]
    exact ((List.filter_sublist _).map _).cons₂ _
  · intro c hc hn
    rw [h2, ← MatchString_iff]
    simp only [List.drop_succ_cons, List.drop_zero, List.mem_map, List.mem_filter]
    constructor
    · rintro ⟨c2, ⟨_, hm⟩, hrec⟩
      have : c2.comment.TextDisplay = c.comment.TextDisplay := by
        simp only [Item.record, List.cons.injEq, and_true] at hrec
        exact hrec.2
      rw [← this]; exact hm
    · intro hm
      exact ⟨c, ⟨⟨hc, hn⟩, hm⟩, rfl⟩

/-- The scenario of the specification: exactly one filtered row, Bob's. -/
theorem korean_output_rows_witness :
    ReachesWriter scenarioWorld "ownerId".toList scenarioComments ∧
    written koreanFile (main scenarioWorld) = [header, ["Bob".toList, "안녕하세요".toList]] :=
  ⟨scenario_reaches,
   (korean_output_rows scenarioWorld "ownerId".toList scenarioComments scenario_reaches).1.trans
     (by decide)⟩

/-- C3 (the code departs from the claim): the URL `earlierVEqAmpURL` has the
marker, then the identifier `abc`, then `&`, and `getVideoID` returns
`1/youtube.com/watch?`, the text after the earlier `v=`, not `abc`. -/
theorem getVideoID_earlier_vEq_amp :
    earlierVEqAmpURL
      = "https://proxy.example/rv=1/".toList ++ marker ++ "abc".toList ++ amp ++ "t=5".toList ∧
    Contains earlierVEqAmpURL marker = true ∧
    Contains "abc".toList amp = false ∧
    getVideoID earlierVEqAmpURL = some "1/youtube.com/watch?".toList ∧
    getVideoID earlierVEqAmpURL ≠ some "abc".toList := by
  decide

/-- C4 (the code departs from the claim): the URL `earlierVEqURL` has the
marker and no `&` at all, the text after the marker is `abc`, and `getVideoID`
returns `1/youtube.com/watch?`. -/
theorem getVideoID_earlier_vEq_end :
    earlierVEqURL = "https://proxy.example/rv=1/".toList ++ marker ++ "abc".toList ∧
    Contains earlierVEqURL marker = true ∧
    Contains earlierVEqURL amp = false ∧
    getVideoID earlierVEqURL = some "1/youtube.com/watch?".toList ∧
    getVideoID earlierVEqURL ≠ some "abc".toList := by
  decide

/-- C5: for a URL without the marker `getVideoID` returns the empty string (it
does not panic), and a run that has its API key goes on to the "videos" request
with the empty identifier, right after the prompt. -/
theorem getVideoID_no_marker (url : Str) (h : Contains url marker = false) :
    getVideoID url = some [] ∧
    ∀ w : World, w.youtubeURL = url → w.dotenvErr = none → w.apiKey ≠ [] →
      ∃ rest, main w = .print "Enter YouTube video URL: ".toList ::
          .httpGet (videoInfoUrl [] w.apiKey) :: rest ∧
        videoInfoUrl [] w.apiKey
          = "https://www.googleapis.com/youtube/v3/videos?part=snippet&id=&key=".toList
              ++ w.apiKey := by
  have hg : getVideoID url = some [] := by simp [getVideoID, h]
  refine ⟨hg, ?_⟩
  intro w hu hd hk
  subst hu
  refine ⟨(main w).drop 2, ?_, by simp [videoInfoUrl]⟩
  rcases ownerLookup_cases w w.apiKey [] with ⟨e1, h1⟩ | ⟨e1, h1⟩ | ⟨id, h1⟩ | h1 <;>
  · simp only [main, hd, hk, if_false, hg, h1]
    simp

/-- A typed text without the marker: the first request asks for the video with
the empty identifier. -/
theorem getVideoID_no_marker_witness :
    Contains "https://example.com/".toList marker = false ∧
    getVideoID "https://example.com/".toList = some [] ∧
    (main noMarkerWorld).take 2
      = [.print "Enter YouTube video URL: ".toList,
         .httpGet
           "https://www.googleapis.com/youtube/v3/videos?part=snippet&id=&key=KEY".toList] :=
  ⟨by decide,
   (getVideoID_no_marker "https://example.com/".toList (by decide)).1,
   by decide⟩

/-- C6: when the "videos" request and the decoding succeed,
`getVideoOwnerChannelId` returns the channel of the first entry and no error
when the list is not empty, whatever follows the first entry, and the empty
string with the error "No video information found" when the list is empty; it
fails iff the list is empty. -/
theorem getVideoOwnerChannelId_result (w : World) (apiKey videoId : Str) (resp : Response)
    (body : Bytes) (videoInfo : VideoInfo)
    (hget : w.httpGet (videoInfoUrl videoId apiKey) = .ok resp) (hbody : resp.Body = .ok body)
    (hjson : w.unmarshalVideoInfo body = .ok videoInfo) :
    (∀ first rest, videoInfo.Items = first :: rest →
      (getVideoOwnerChannelId w apiKey videoId).2 = (first.Snippet.ChannelId, none)) ∧
    (videoInfo.Items = [] →
      (getVideoOwnerChannelId w apiKey videoId).2 = ([], some noVideoInformation)) ∧
    ((getVideoOwnerChannelId w apiKey videoId).2.2.isSome = true ↔ videoInfo.Items = []) ∧
    noVideoInformation = "No video information found".toList := by
  refine ⟨?_, ?_, ?_, rfl⟩
  · intro first rest hi
    simp [getVideoOwnerChannelId, hget, hbody, hjson, hi]
  · intro hi
    simp [getVideoOwnerChannelId, hget, hbody, hjson, hi]
  · cases hi : videoInfo.Items with
    | nil => simp [getVideoOwnerChannelId, hget, hbody, hjson, hi]
    | cons first rest => simp [getVideoOwnerChannelId, hget, hbody, hjson, hi]

/-- A "videos" answer with two entries gives the channel of the first; an
answer with no entry gives the error. -/
theorem getVideoOwnerChannelId_result_witness :
    (getVideoOwnerChannelId
        (worldWith sampleURL (.ok ⟨[⟨⟨"first".toList⟩⟩, ⟨⟨"second".toList⟩⟩]⟩) (.ok ⟨[]⟩))
        "KEY".toList "abc123".toList).2 = ("first".toList, none) ∧
    (getVideoOwnerChannelId (worldWith sampleURL (.ok ⟨[]⟩) (.ok ⟨[]⟩))
        "KEY".toList "abc123".toList).2 = ([], some "No video information found".toList) :=
  ⟨(getVideoOwnerChannelId_result
      (worldWith sampleURL (.ok ⟨[⟨⟨"first".toList⟩⟩, ⟨⟨"second".toList⟩⟩]⟩) (.ok ⟨[]⟩))
      "KEY".toList "abc123".toList ⟨200, .ok []⟩ [] _ rfl rfl rfl).1 _ _ rfl,
   (getVideoOwnerChannelId_result (worldWith sampleURL (.ok ⟨[]⟩) (.ok ⟨[]⟩))
      "KEY".toList "abc123".toList ⟨200, .ok []⟩ [] _ rfl rfl rfl).2.1 rfl⟩

/-- C7: in a run in which the JSON body of either endpoint fails to decode, no
event creates or writes a file, neither `comments_korean.csv` nor
`comments_all.csv` exists after the run, and the failed decoding is followed by
one diagnostic and nothing else. -/
theorem decode_failure_no_output (w : World) (target e : Str)
    (h : Event.unmarshal target (some e) ∈ main w) :
    (∀ ev ∈ main w, ev.isFileOutput = false) ∧
    fileAfter koreanFile (main w) = none ∧ fileAfter allFile (main w) = none ∧
    written koreanFile (main w) = [] ∧ written allFile (main w) = [] ∧
    ∃ pre msg, main w = pre ++ [.unmarshal target (some e), .println msg] := by
  obtain ⟨h1, pre, msg, h2, _⟩ := main_of_unmarshal_error w target e h
  exact ⟨h1, fileAfter_none_of_no_output _ _ h1, fileAfter_none_of_no_output _ _ h1,
    written_nil_of_no_output _ _ h1, written_nil_of_no_output _ _ h1, pre, msg, h2⟩

/-- Both endpoints: a "videos" body that does not decode ends the run before
the comment request, a "commentThreads" body that does not decode ends it
before the files are created. -/
theorem decode_failure_no_output_witness :
    (Event.unmarshal "videoInfo".toList (some "unexpected end of JSON input".toList)
        ∈ main videosDecodeErrorWorld ∧
      fileAfter koreanFile (main videosDecodeErrorWorld) = none ∧
      fileAfter allFile (main videosDecodeErrorWorld) = none) ∧
    (Event.unmarshal "ytResponse".toList (some "unexpected end of JSON input".toList)
        ∈ main commentsDecodeErrorWorld ∧
      fileAfter koreanFile (main commentsDecodeErrorWorld) = none ∧
      fileAfter allFile (main commentsDecodeErrorWorld) = none) :=
  ⟨⟨by decide,
    (decode_failure_no_output videosDecodeErrorWorld "videoInfo".toList
      "unexpected end of JSON input".toList (by decide)).2.1,
    (decode_failure_no_output videosDecodeErrorWorld "videoInfo".toList
      "unexpected end of JSON input".toList (by decide)).2.2.1⟩,
   ⟨by decide,
    (decode_failure_no_output commentsDecodeErrorWorld "ytResponse".toList
      "unexpected end of JSON input".toList (by decide)).2.1,
    (decode_failure_no_output commentsDecodeErrorWorld "ytResponse".toList
      "unexpected end of JSON input".toList (by decide)).2.2.1⟩⟩

/-- C8: in a run that reaches the loop, the header `Author,Comment` is the
first record of both outputs; when the comment list is empty the run reports no
failure, both files are created, and each consists of the header record
alone. -/
theorem header_only_outputs (w : World) (o : Str) (cs : List Item) (h : ReachesWriter w o cs) :
    ((written koreanFile (main w)).head? = some header ∧
      (written allFile (main w)).head? = some header ∧
      ∃ restKorean restAll,
        fileAfter koreanFile (main w) = some ("Author,Comment\n".toList ++ restKorean) ∧
        fileAfter allFile (main w) = some ("Author,Comment\n".toList ++ restAll)) ∧
    (cs = [] →
      written koreanFile (main w) = [header] ∧ written allFile (main w) = [header] ∧
      fileAfter koreanFile (main w) = some "Author,Comment\n".toList ∧
      fileAfter allFile (main w) = some "Author,Comment\n".toList ∧
      ∀ ev ∈ main w, ev.isFailure = false) ∧
    header = ["Author".toList, "Comment".toList] := by
  obtain ⟨h1, h2, h3, h4, h5⟩ := outputs_of_reaches w o cs h
  have hh : csvWrite header = "Author,Comment\n".toList := by decide
  refine ⟨⟨by rw [h2]; rfl, by rw [h1]; rfl, ?_⟩, ?_, rfl⟩
  · refine ⟨csvWriteAll (((cs.filter (Item.notBy o)).filter
        (fun item => MatchString item.comment.TextDisplay)).map Item.record),
      csvWriteAll ((cs.filter (Item.notBy o)).map Item.record), ?_, ?_⟩
    · rw [h4, h2, csvWriteAll, hh]
    · rw [h3, h1, csvWriteAll, hh]
  · intro hcs
    subst hcs
    simp only [List.filter_nil, List.map_nil] at h1 h2
    refine ⟨h2, h1, ?_, ?_, h5⟩
    · rw [h4, h2, csvWriteAll, hh]; rfl
    · rw [h3, h1, csvWriteAll, hh]; rfl

theorem emptyWorld_reaches : ReachesWriter emptyWorld "ownerId".toList [] :=
  ⟨rfl, by decide, "abc123".toList, ⟨200, .ok []⟩, [], by decide, by decide, rfl, rfl, rfl, rfl, rfl⟩

/-- A run with no comment: both files hold the header line and nothing else. -/
theorem header_only_outputs_witness :
    ReachesWriter emptyWorld "ownerId".toList [] ∧
    fileAfter koreanFile (main emptyWorld) = some "Author,Comment\n".toList ∧
    fileAfter allFile (main emptyWorld) = some "Author,Comment\n".toList :=
  ⟨emptyWorld_reaches,
   ((header_only_outputs emptyWorld "ownerId".toList [] emptyWorld_reaches).2.1 rfl).2.2.1,
   ((header_only_outputs emptyWorld "ownerId".toList [] emptyWorld_reaches).2.1 rfl).2.2.2.1⟩

theorem map_crlfToLf_rows (rows : List (List Str))
    (h : ∀ r ∈ rows, ∀ f ∈ r, hasCRLF f = false) : rows.map (List.map crlfToLf) = rows := by
  induction rows with
  | nil => rfl
  | cons r rest ih =>
    have hr : r.map crlfToLf = r := by
      have hr0 := h r (by simp)
      clear ih h
      induction r with
      | nil => rfl
      | cons f t iht =>
        simp only [List.map_cons]
        rw [crlfToLf_of_not_hasCRLF f (hr0 f (by simp)), iht (fun f hf => hr0 f (by simp [hf]))]
    simp only [List.map_cons, hr, ih (fun r hr => h r (by simp [hr]))]

theorem ReadAll_records (items : List Item)
    (hcr : ∀ c ∈ items, hasCRLF c.comment.AuthorDisplayName = false
      ∧ hasCRLF c.comment.TextDisplay = false) :
    ReadAll (csvWriteAll (header :: items.map Item.record))
      = .ok (header :: items.map Item.record) := by
  rw [ReadAll_csvWriteAll]
  · rw [map_crlfToLf_rows]
    intro r hr f hf
    rcases List.mem_cons.mp hr with hr | hr
    · subst hr
      revert f
      decide
    · obtain ⟨c, hc, rfl⟩ := List.mem_map.mp hr
      simp only [Item.record, List.mem_cons, List.mem_singleton, List.not_mem_nil, or_false] at hf
      rcases hf with hf | hf
      · rw [hf]; exact (hcr c hc).1
      · rw [hf]; exact (hcr c hc).2
  · intro r hr
    rcases List.mem_cons.mp hr with hr | hr
    · subst hr; rfl
    · obtain ⟨c, _, rfl⟩ := List.mem_map.mp hr
      rfl

/-- C9, as amended: in a run that reaches the loop, when no author name and no
text of a non-owner comment has a carriage return immediately followed by a
line feed, reading either output file back with the CSV reader gives the header
followed by rows equal, field for field, to the (author, text) pairs of the
qualifying comments (commas, double quotes, line feeds and lone carriage
returns included). -/
theorem csv_round_trip (w : World) (o : Str) (cs : List Item) (h : ReachesWriter w o cs)
    (hcr : ∀ c ∈ cs, Item.notBy o c = true →
      hasCRLF c.comment.AuthorDisplayName = false ∧ hasCRLF c.comment.TextDisplay = false) :
    ∃ contentAll contentKorean,
      fileAfter allFile (main w) = some contentAll ∧
      fileAfter koreanFile (main w) = some contentKorean ∧
      ReadAll contentAll = .ok (header :: (cs.filter (Item.notBy o)).map Item.record) ∧
      ReadAll contentKorean = .ok (header :: ((cs.filter (Item.notBy o)).filter
          (fun c => MatchString c.comment.TextDisplay)).map Item.record) := by
  obtain ⟨h1, h2, h3, h4, _⟩ := outputs_of_reaches w o cs h
  refine ⟨_, _, h3, h4, ?_, ?_⟩
  · rw [h1]
    apply ReadAll_records
    intro c hc
    obtain ⟨hc1, hc2⟩ := List.mem_filter.mp hc
    exact hcr c hc1 hc2
  · rw [h2]
    apply ReadAll_records
    intro c hc
    obtain ⟨hc0, _⟩ := List.mem_filter.mp hc
    obtain ⟨hc1, hc2⟩ := List.mem_filter.mp hc0
    exact hcr c hc1 hc2

theorem specialWorld_reaches : ReachesWriter specialWorld "ownerId".toList specialComments :=
  ⟨rfl, by decide, "abc123".toList, ⟨200, .ok []⟩, [], by decide, by decide, rfl, rfl, rfl, rfl, rfl⟩

/-- Comments with commas, quotes, line feeds, a lone carriage return and a
leading space come back unchanged. -/
theorem csv_round_trip_witness :
    ReachesWriter specialWorld "ownerId".toList specialComments ∧
    (∀ c ∈ specialComments, Item.notBy "ownerId".toList c = true →
      hasCRLF c.comment.AuthorDisplayName = false ∧ hasCRLF c.comment.TextDisplay = false) ∧
    ∃ contentAll contentKorean,
      fileAfter allFile (main specialWorld) = some contentAll ∧
      fileAfter koreanFile (main specialWorld) = some contentKorean ∧
      ReadAll contentAll
        = .ok (header :: (specialComments.filter (Item.notBy "ownerId".toList)).map Item.record) ∧
      ReadAll contentKorean
        = .ok (header :: ((specialComments.filter (Item.notBy "ownerId".toList)).filter
            (fun c => MatchString c.comment.TextDisplay)).map Item.record) :=
  ⟨specialWorld_reaches, by decide,
   csv_round_trip specialWorld "ownerId".toList specialComments specialWorld_reaches (by decide)⟩

theorem crlfWorld_reaches : ReachesWriter crlfWorld "ownerId".toList crlfComments :=
  ⟨rfl, by decide, "abc123".toList, ⟨200, .ok []⟩, [], by decide, by decide, rfl, rfl, rfl, rfl, rfl⟩

/-- C9 as stated fails: the text `one\r\ntwo` is written as a quoted field with
the pair inside, and the reader gives back `one\ntwo`. -/
theorem crlf_round_trip_counterexample :
    ReachesWriter crlfWorld "ownerId".toList crlfComments ∧
    fileAfter allFile (main crlfWorld)
      = some (csvWriteAll [header, ["Eve".toList, "one\r\ntwo".toList]]) ∧
    ReadAll (csvWriteAll [header, ["Eve".toList, "one\r\ntwo".toList]])
      = .ok [header, ["Eve".toList, "one\ntwo".toList]] ∧
    ReadAll (csvWriteAll [header, ["Eve".toList, "one\r\ntwo".toList]])
      ≠ .ok (header :: (crlfComments.filter (Item.notBy "ownerId".toList)).map Item.record) :=
  ⟨crlfWorld_reaches, by decide, by decide, by decide⟩

/-- C10: when the URL has the marker, `getVideoID` returns the text that starts
right after the first `v=` of the URL and stops before the earliest following
`v=` or `&`, or at the end of the URL when neither follows, and the second
piece of the split exists; the first piece of a split always exists;
`getVideoID` never panics, and its result has neither `&` nor `v=`. -/
theorem getVideoID_segment (url : Str) :
    (Contains url marker = true → ∃ pre rest k, url = pre ++ vEq ++ rest ∧
      (∀ j, j < pre.length → startsWith (url.drop j) vEq = false) ∧
      k ≤ rest.length ∧
      getVideoID url = some (rest.take k) ∧
      (∀ j, j < k →
        startsWith (rest.drop j) vEq = false ∧ startsWith (rest.drop j) amp = false) ∧
      (k = rest.length ∨ startsWith (rest.drop k) vEq = true
        ∨ startsWith (rest.drop k) amp = true) ∧
      1 < (Split url vEq).length) ∧
    (∀ piece : Str, 0 < (Split piece amp).length) ∧
    (∃ r, getVideoID url = some r ∧ Contains r amp = false ∧ Contains r vEq = false) := by
  refine ⟨?_, ?_, ?_⟩
  · intro h
    obtain ⟨pre, rest, k, h1, h2, h3, h4, h5, h6, h7, _, _⟩ := segment_of_marker url h
    exact ⟨pre, rest, k, h1, h2, h3, h4, h5, h6, h7⟩
  · intro piece
    have ha : amp ≠ [] := by decide
    simp only [Split, if_neg ha]
    exact splitLoop_length_pos _ _ _
  · cases h : Contains url marker with
    | true =>
      obtain ⟨pre, rest, k, _, _, _, h4, _, _, _, h8, h9⟩ := segment_of_marker url h
      exact ⟨_, h4, h8, h9⟩
    | false =>
      exact ⟨[], by simp [getVideoID, h], by decide, by decide⟩

/-- A URL with `v=` before the marker: the result starts after that first `v=`
and stops before `v=` of the marker. -/
theorem getVideoID_segment_witness :
    Contains earlierVEqAmpURL marker = true ∧
    getVideoID earlierVEqAmpURL = some "1/youtube.com/watch?".toList ∧
    ∃ pre rest k, earlierVEqAmpURL = pre ++ vEq ++ rest ∧
      (∀ j, j < pre.length → startsWith (earlierVEqAmpURL.drop j) vEq = false) ∧
      k ≤ rest.length ∧
      getVideoID earlierVEqAmpURL = some (rest.take k) ∧
      (∀ j, j < k →
        startsWith (rest.drop j) vEq = false ∧ startsWith (rest.drop j) amp = false) ∧
      (k = rest.length ∨ startsWith (rest.drop k) vEq = true
        ∨ startsWith (rest.drop k) amp = true) ∧
      1 < (Split earlierVEqAmpURL vEq).length :=
  ⟨by decide, by decide, (getVideoID_segment earlierVEqAmpURL).1 (by decide)⟩

end YoutubeHangulComment
